import Mathlib

/-!
Verification of the text-based alignment and timing-repair engine
(`bin/text_based_alignment.py`): a shallow embedding of its data model and
operations in Lean, followed by theorems about the edit-distance aligner,
the timing reconstructor, the segment pairer and the batch driver.

Machine floats of the source are modelled as exact rationals (ℚ); Python
string indices are modelled with `Int` so that the sentinel value `-1`
used by the source is kept verbatim.
-/

namespace TBA

/-- Edit operation tags, mirroring `class EditOp(Enum)` of the source
(`MATCH = "M"`, `SUBSTITUTE = "S"`, `INSERT = "I"`, `DELETE = "D"`). -/
inductive EditOp where
  | MATCH
  | SUBSTITUTE
  | INSERT
  | DELETE
deriving DecidableEq, Repr, Inhabited

/-- Serialized one-letter value of an edit operation (`EditOp.value`). -/
def EditOp.value : EditOp → String
  | .MATCH => "M"
  | .SUBSTITUTE => "S"
  | .INSERT => "I"
  | .DELETE => "D"

/-- Mirror of `@dataclass WordTiming`: a hypothesis word with its timing. -/
structure WordTiming where
  word : String
  start : ℚ
  stop : ℚ
  confidence : Option ℚ := none
deriving DecidableEq, Repr, Inhabited

/-- Mirror of `@dataclass AlignmentOperation`. -/
structure AlignmentOperation where
  op : EditOp
  asr_word : Option WordTiming
  ref_word : Option String
  adjusted_timing : Option (ℚ × ℚ) := none
deriving DecidableEq, Repr

instance : Inhabited AlignmentOperation :=
  ⟨{ op := .MATCH, asr_word := none, ref_word := none, adjusted_timing := none }⟩

/-- Mirror of `normalize_word`: lowercase then drop every non-word
character (`re.sub(r'[^\w]', '', word.lower())`); the `\w` class is
modelled over the character range exercised here as alphanumerics plus
underscore. -/
def normalize_word (word : String) : String :=
  (((word.toList).map Char.toLower).filter (fun c => c.isAlphanum || c == '_')).asString

/-- One inner cell of the DP fill (source lines 88-115): the cell value
starts from the diagonal candidate (which always beats the `inf`
initialisation), then `DELETE` replaces it only on strictly smaller cost,
then `INSERT` replaces the running value only on strictly smaller cost.
Arguments are the raw predecessor values `dp[i-1][j-1]`, `dp[i-1][j]`,
`dp[i][j-1]` and whether the two normalized words are equal. -/
def dpCell (eq : Bool) (ddiag ddel dins : ℕ) : ℕ × EditOp :=
  let s1 : ℕ × EditOp :=
    (ddiag + (if eq then 0 else 1), if eq then EditOp.MATCH else EditOp.SUBSTITUTE)
  let s2 : ℕ × EditOp := if ddel + 1 < s1.1 then (ddel + 1, EditOp.DELETE) else s1
  let s3 : ℕ × EditOp := if dins + 1 < s2.1 then (dins + 1, EditOp.INSERT) else s2
  s3

/-- Whether the `i`-th hypothesis word and `j`-th reference word are equal
after normalization (source lines 90-94). -/
def wordsEq (a b : List String) (i j : ℕ) : Bool :=
  decide (normalize_word (a.getD i "") = normalize_word (b.getD j ""))

/-- Row `i+1` of the DP table, built from row `i` exactly as the inner
`for j in range(1, n + 1)` loop does: `dp[i+1][0] = i+1`, and each inner
cell combines `dp[i][j]`, `dp[i][j+1]` and the just-computed `dp[i+1][j]`
through `dpCell`. -/
def dpRowStep (a b : List String) (i : ℕ) (prevRow : ℕ → ℕ) : ℕ → ℕ
  | 0 => i + 1
  | j + 1 =>
    (dpCell (wordsEq a b i j) (prevRow j) (prevRow (j + 1)) (dpRowStep a b i prevRow j)).1

/-- All rows of the DP table, built row by row like the outer
`for i in range(1, m + 1)` loop; row 0 is the initialisation
`dp[0][j] = j`. -/
def dpRow (a b : List String) : ℕ → ℕ → ℕ
  | 0 => fun j => j
  | i + 1 => dpRowStep a b i (dpRow a b i)

/-- The DP cost table `dp[i][j]` of `compute_edit_distance`: edit distance
between the first `i` hypothesis words and the first `j` reference words. -/
def dpD (a b : List String) (i j : ℕ) : ℕ := dpRow a b i j

theorem dpD_zero_left (a b : List String) (j : ℕ) : dpD a b 0 j = j := rfl

theorem dpD_succ_zero (a b : List String) (i : ℕ) : dpD a b (i + 1) 0 = i + 1 := rfl

theorem dpD_cell (a b : List String) (i j : ℕ) :
    dpD a b (i + 1) (j + 1) =
      (dpCell (wordsEq a b i j) (dpD a b i j) (dpD a b i (j + 1)) (dpD a b (i + 1) j)).1 :=
  rfl

/-- The decision recorded in the backtrack table at inner cell
`(i+1, j+1)` during the forward pass. -/
def btDecision (a b : List String) (i j : ℕ) : EditOp :=
  (dpCell (wordsEq a b i j) (dpD a b i j) (dpD a b i (j + 1)) (dpD a b (i + 1) j)).2

/-- Path reconstruction to the boundary cell `(0, j)` (top row): a run of
`INSERT` decisions. -/
def btRow0 : ℕ → List (EditOp × Int × Int)
  | 0 => []
  | j + 1 => btRow0 j ++ [(EditOp.INSERT, -1, (j : Int))]

/-- Path reconstruction to the cells of row `i+1`, given the paths to the
cells of row `i`: the backtrack step at `(i+1, j+1)` follows the decision
recorded during the forward pass (`DELETE` moves up, `INSERT` moves left,
`MATCH`/`SUBSTITUTE` move diagonally), and the left column holds `DELETE`
decisions. -/
def btRowStep (a b : List String) (i : ℕ) (prevRow : ℕ → List (EditOp × Int × Int)) :
    ℕ → List (EditOp × Int × Int)
  | 0 => prevRow 0 ++ [(EditOp.DELETE, (i : Int), -1)]
  | j + 1 =>
    match btDecision a b i j with
    | EditOp.DELETE => prevRow (j + 1) ++ [(EditOp.DELETE, (i : Int), -1)]
    | EditOp.INSERT => btRowStep a b i prevRow j ++ [(EditOp.INSERT, -1, (j : Int))]
    | op => prevRow j ++ [(op, (i : Int), (j : Int))]

/-- Path reconstruction (source lines 117-132): the path to cell `(i, j)`,
obtained by walking the backtrack table down to `(0, 0)`; the source
appends while walking backwards and reverses at the end, which yields the
same front-first path built here row by row. -/
def btPath (a b : List String) : ℕ → ℕ → List (EditOp × Int × Int)
  | 0 => btRow0
  | i + 1 => btRowStep a b i (btPath a b i)

theorem btPath_zero_zero (a b : List String) : btPath a b 0 0 = [] := rfl

theorem btPath_zero_succ (a b : List String) (j : ℕ) :
    btPath a b 0 (j + 1) = btPath a b 0 j ++ [(EditOp.INSERT, -1, (j : Int))] := rfl

theorem btPath_succ_zero (a b : List String) (i : ℕ) :
    btPath a b (i + 1) 0 = btPath a b i 0 ++ [(EditOp.DELETE, (i : Int), -1)] := rfl

theorem btPath_succ_succ (a b : List String) (i j : ℕ) :
    btPath a b (i + 1) (j + 1) =
      match btDecision a b i j with
      | EditOp.DELETE => btPath a b i (j + 1) ++ [(EditOp.DELETE, (i : Int), -1)]
      | EditOp.INSERT => btPath a b (i + 1) j ++ [(EditOp.INSERT, -1, (j : Int))]
      | op => btPath a b i j ++ [(op, (i : Int), (j : Int))] :=
  rfl

/-- Mirror of `compute_edit_distance`: returns the edit distance between
the two token sequences together with the alignment path. -/
def compute_edit_distance (asr_words ref_words : List String) :
    ℕ × List (EditOp × Int × Int) :=
  (dpD asr_words ref_words asr_words.length ref_words.length,
   btPath asr_words ref_words asr_words.length ref_words.length)

/-- Abbreviation used throughout the timing reconstructor. -/
abbrev AOp := AlignmentOperation

/-- Predicate for an operation that already has resolved timing
(`operations[j].adjusted_timing` truthiness in the source; a tuple of two
floats is always truthy). -/
def isTimed (o : AOp) : Bool := o.adjusted_timing.isSome

/-- Predicate for an untimed insertion, the membership test of the
consecutive-insertion scan
(`operations[j].op == EditOp.INSERT and not operations[j].adjusted_timing`). -/
def untimedInsert (o : AOp) : Bool :=
  o.op == EditOp.INSERT && o.adjusted_timing.isNone

/-- End time of the nearest preceding operation with resolved timing
(backward scan, source lines 148-151). -/
def prevTimedEnd (ops : List AOp) (i : ℕ) : Option ℚ :=
  ((ops.take i).reverse.find? isTimed).bind (fun o => o.adjusted_timing.map Prod.snd)

/-- Start time of the nearest following operation with resolved timing
(forward scan, source lines 154-157). -/
def nextTimedStart (ops : List AOp) (i : ℕ) : Option ℚ :=
  ((ops.drop (i + 1)).find? isTimed).bind (fun o => o.adjusted_timing.map Prod.fst)

/-- Index of the nearest preceding operation with resolved timing
(backward scan of `reduce_adjacent_words_timing`, source lines 199-202). -/
def prevTimedIdx (ops : List AOp) (i : ℕ) : Option ℕ :=
  ((ops.take i).reverse.findIdx? isTimed).map (fun t => i - 1 - t)

/-- Index of the nearest following operation with resolved timing
(forward scan of `reduce_adjacent_words_timing`, source lines 204-207). -/
def nextTimedIdx (ops : List AOp) (i : ℕ) : Option ℕ :=
  ((ops.drop (i + 1)).findIdx? isTimed).map (fun t => i + 1 + t)

/-- First index of the consecutive insertion group around `i`
(backward extension, source lines 160-166). -/
def groupLo (ops : List AOp) (i : ℕ) : ℕ :=
  i - ((ops.take i).reverse.takeWhile untimedInsert).length

/-- Last index of the consecutive insertion group around `i`
(forward extension, source lines 167-172). -/
def groupHi (ops : List AOp) (i : ℕ) : ℕ :=
  i + ((ops.drop (i + 1)).takeWhile untimedInsert).length

/-- Overwrite the adjusted timing of the operation at index `j`. -/
def setTimingAt (ops : List AOp) (j : ℕ) (t : ℚ × ℚ) : List AOp :=
  ops.set j { ops.getD j default with adjusted_timing := some t }

/-- Position-indexed map over a list, used for group assignment. -/
def mapIdxFrom (f : ℕ → AOp → AOp) : ℕ → List AOp → List AOp
  | _, [] => []
  | n, o :: os => f n o :: mapIdxFrom f (n + 1) os

/-- Timing slot for the operation at index `j` of an insertion group
occupying indices `lo..hi`: member `j - lo` receives
`(base + (j-lo)*tp, base + (j-lo+1)*tp)`, mirroring the
`for k, ins_op in enumerate(insertion_group)` loops of the source;
indices outside the group are untouched. -/
def assignSlot (lo hi : ℕ) (base tp : ℚ) (j : ℕ) (o : AOp) : AOp :=
  if lo ≤ j ∧ j ≤ hi then
    let t : ℚ × ℚ :=
      (base + ((j - lo : ℕ) : ℚ) * tp, base + (((j - lo : ℕ) : ℚ) + 1) * tp)
    { o with adjusted_timing := some t }
  else o

/-- Assign timings to the insertion group occupying indices `lo..hi`. -/
def assignGroup (ops : List AOp) (lo hi : ℕ) (base tp : ℚ) : List AOp :=
  mapIdxFrom (assignSlot lo hi base tp) 0 ops

/-- Mirror of `reduce_adjacent_words_timing` (source lines 191-235): shrink
the nearest preceding resolved interval's end and the nearest following
resolved interval's start by `reduction_factor = 0.33` of their durations,
then, if any time was reclaimed, distribute it equally over the insertion
group, starting at the (now earlier) end of the preceding interval, or at
0 when there is no preceding resolved operation. -/
def reduce_adjacent_words_timing (ops : List AOp) (lo hi center : ℕ) : List AOp :=
  let k : ℕ := hi + 1 - lo
  let pIdx := prevTimedIdx ops center
  let nIdx := nextTimedIdx ops center
  let step1 : List AOp × ℚ :=
    match pIdx with
    | some p =>
      match (ops.getD p default).adjusted_timing with
      | some t =>
        (setTimingAt ops p (t.1, t.2 - (t.2 - t.1) * (33 / 100)), (t.2 - t.1) * (33 / 100))
      | none => (ops, 0)
    | none => (ops, 0)
  let step2 : List AOp × ℚ :=
    match nIdx with
    | some q =>
      match (step1.1.getD q default).adjusted_timing with
      | some t =>
        (setTimingAt step1.1 q (t.1 + (t.2 - t.1) * (33 / 100), t.2),
         step1.2 + (t.2 - t.1) * (33 / 100))
      | none => (step1.1, step1.2)
    | none => (step1.1, step1.2)
  if 0 < step2.2 then
    let tp := step2.2 / (k : ℚ)
    let st : ℚ :=
      match pIdx with
      | some p =>
        match (step2.1.getD p default).adjusted_timing with
        | some t => t.2
        | none => 0
      | none => 0
    assignGroup step2.1 lo hi st tp
  else step2.1

/-- Mirror of `handle_edge_insertions` (source lines 237-273): runs at the
segment edges get a fixed `base_duration = 0.1` per word, placed backward
from the first resolved operation when the run is at the start
(`center_idx == 0`), anchored at 0 when nothing is resolved at all, and
placed forward from the nearest preceding resolved operation otherwise. -/
def handle_edge_insertions (ops : List AOp) (lo hi center : ℕ) : List AOp :=
  let k : ℕ := hi + 1 - lo
  if center = 0 then
    let ns := (ops.find? isTimed).bind (fun o => o.adjusted_timing.map Prod.fst)
    let st : ℚ :=
      match ns with
      | some q => q - (k : ℚ) * (1 / 10)
      | none => 0
    assignGroup ops lo hi st (1 / 10)
  else
    let pe := (prevTimedEnd ops center).getD 0
    assignGroup ops lo hi pe (1 / 10)

/-- One iteration of the `for i, op in enumerate(operations)` loop of
`adjust_timing_for_insertions` (source lines 139-189). -/
def adjustStep (ops : List AOp) (i : ℕ) : List AOp :=
  if (ops.getD i default).op = EditOp.INSERT then
    let pe := prevTimedEnd ops i
    let ns := nextTimedStart ops i
    let lo := groupLo ops i
    let hi := groupHi ops i
    match pe, ns with
    | some p, some q =>
      if 0 < q - p then
        assignGroup ops lo hi p ((q - p) / ((hi + 1 - lo : ℕ) : ℚ))
      else
        reduce_adjacent_words_timing ops lo hi i
    | _, _ => handle_edge_insertions ops lo hi i
  else ops

/-- Iterate `adjustStep` over indices `i, i+1, ..., i+n-1`.  The list
length is invariant under every step, so iterating over the original
index range is faithful to the Python `enumerate` loop. -/
def adjustGo : List AOp → ℕ → ℕ → List AOp
  | ops, _, 0 => ops
  | ops, i, n + 1 => adjustGo (adjustStep ops i) (i + 1) n

/-- Mirror of `adjust_timing_for_insertions`. -/
def adjust_timing_for_insertions (ops : List AOp) : List AOp :=
  adjustGo ops 0 ops.length

/-- Mirror of `adjust_substitution_timings` (source lines 339-357): the
loop scans consecutive substitution runs but performs no mutation
("For now, keep 1-1 substitution timings as-is"), so it is the identity. -/
def adjust_substitution_timings (ops : List AOp) : List AOp := ops

/-- Construction of one `AlignmentOperation` from a path entry
(`align_segment`, source lines 292-307): words are looked up only for
non-negative indices, and `adjusted_timing` is initialised with the
hypothesis word's own interval whenever an ASR word is present. -/
def mkOperation (asr_words : List WordTiming) (ref_words : List String)
    (e : EditOp × Int × Int) : AOp :=
  let asr_word := if 0 ≤ e.2.1 then asr_words.get? e.2.1.toNat else none
  let ref_word := if 0 ≤ e.2.2 then ref_words.get? e.2.2.toNat else none
  { op := e.1
    asr_word := asr_word
    ref_word := ref_word
    adjusted_timing := asr_word.map (fun w => (w.start, w.stop)) }

/-- The operation list built by `align_segment` before any timing
adjustment runs. -/
def mkOperations (asr_words : List WordTiming) (ref_words : List String) : List AOp :=
  ((compute_edit_distance (asr_words.map (fun w => w.word)) ref_words).2).map
    (mkOperation asr_words ref_words)

/-- Per-segment operation counters (the `stats` dict of `align_segment`);
`matched` mirrors the `"matches"` counter (the Python key cannot be used
as a Lean field name). -/
structure Stats where
  deletions : ℕ
  insertions : ℕ
  substitutions : ℕ
  matched : ℕ
deriving DecidableEq, Repr

/-- Statistics accumulated over an operation list (source lines 309-317). -/
def countStats (ops : List AOp) : Stats :=
  { deletions := ops.countP (fun o => o.op = EditOp.DELETE)
    insertions := ops.countP (fun o => o.op = EditOp.INSERT)
    substitutions := ops.countP (fun o => o.op = EditOp.SUBSTITUTE)
    matched := ops.countP (fun o => o.op = EditOp.MATCH) }

/-- Mirror of `@dataclass SegmentAlignment`. -/
structure SegmentAlignment where
  segment_id : String
  asr_start : ℚ
  asr_stop : ℚ
  ref_start : ℚ
  ref_stop : ℚ
  operations : List AOp
  stats : Stats
deriving DecidableEq, Repr

/-- Mirror of `align_segment` (source lines 275-337): compute the
alignment path, build the operations with their initial timings, adjust
insertion timings, run the (identity) substitution adjustment, and return
the segment together with its statistics. -/
def align_segment (asr_words : List WordTiming) (ref_words : List String)
    (segment_id : String) (asr_start asr_stop ref_start ref_stop : ℚ) :
    SegmentAlignment :=
  let operations := mkOperations asr_words ref_words
  let adjusted := adjust_substitution_timings (adjust_timing_for_insertions operations)
  { segment_id := segment_id
    asr_start := asr_start
    asr_stop := asr_stop
    ref_start := ref_start
    ref_stop := ref_stop
    operations := adjusted
    stats := countStats operations }

/-- A plain time window (used for reference segments and for the inner
turns of an ASR segment). -/
structure TimeSeg where
  start : ℚ
  stop : ℚ
deriving DecidableEq, Repr, Inhabited

/-- An ASR segment as consumed by `find_overlapping_segments`: either a
section carrying a `turns` list or a plain turn with its own window. -/
structure AsrSeg where
  turns : Option (List TimeSeg)
  start : ℚ
  stop : ℚ
deriving DecidableEq, Repr, Inhabited

/-- Time range of an ASR segment (source lines 372-376): the min/max of
the turn windows when a `turns` list is present, otherwise the segment's
own window.  Python's `min`/`max` raise on an empty `turns` list; the
`getD` fallback stands in for that never-exercised case. -/
def asrRange (s : AsrSeg) : ℚ × ℚ :=
  match s.turns with
  | some ts => (((ts.map TimeSeg.start).min?).getD s.start,
                ((ts.map TimeSeg.stop).max?).getD s.stop)
  | none => (s.start, s.stop)

/-- Overlap duration between a reference window and an ASR time range
(source lines 378-381). -/
def overlapLen (r : TimeSeg) (ar : ℚ × ℚ) : ℚ :=
  max 0 (min r.stop ar.2 - max r.start ar.1)

/-- The inner loop of `find_overlapping_segments` for one reference
segment: fold over the ASR segments keeping `(best_overlap, best_asr_seg)`,
updating only on strictly greater overlap, starting from `(0, None)`. -/
def bestFor (asr_segments : List AsrSeg) (r : TimeSeg) : ℚ × Option AsrSeg :=
  asr_segments.foldl
    (fun acc a =>
      if acc.1 < overlapLen r (asrRange a) then (overlapLen r (asrRange a), some a) else acc)
    (0, none)

/-- Mirror of `find_overlapping_segments` (source lines 359-392): for each
reference segment pick the ASR segment of maximal strictly positive
overlap (first seen wins on ties); reference segments with no positive
overlap are skipped (the source logs a warning for them). -/
def find_overlapping_segments (asr_segments : List AsrSeg) (ref_segments : List TimeSeg) :
    List (AsrSeg × TimeSeg) :=
  ref_segments.foldl
    (fun pairs r =>
      let br := bestFor asr_segments r
      if 0 < br.1 then
        match br.2 with
        | some a => pairs ++ [(a, r)]
        | none => pairs
      else pairs)
    []

/-- A word record of the ASR JSON, with every field optional so that
missing keys can be modelled. -/
structure WordInfo where
  word_with_punctuation : Option String
  word : Option String
  start : Option ℚ
  stop : Option ℚ
  confidence : Option ℚ
deriving DecidableEq, Repr

/-- Extraction of one `WordTiming` from a word record (source lines
400-407).  Python evaluates `word_info["word"]` eagerly as the default
argument of `.get`, so a missing `word` key raises even when
`word_with_punctuation` is present; missing `start` or `end` keys raise
`KeyError` as well. -/
def extractWordTiming (wi : WordInfo) : Except String WordTiming := do
  let dflt ←
    match wi.word with
    | some w => pure w
    | none => Except.error "KeyError: word"
  let s ←
    match wi.start with
    | some s => pure s
    | none => Except.error "KeyError: start"
  let e ←
    match wi.stop with
    | some e => pure e
    | none => Except.error "KeyError: end"
  pure { word := wi.word_with_punctuation.getD dflt
         start := s
         stop := e
         confidence := wi.confidence }

/-- An ASR turn as consumed by `extract_asr_words`. -/
structure AsrTurn where
  words : Option (List WordInfo)
  transcript : Option String
  text : Option String
  start : ℚ
  stop : ℚ
deriving DecidableEq, Repr

/-- Whitespace tokenization as done by Python's no-argument `str.split`:
split on whitespace, discarding the empty tokens produced by runs of
whitespace. -/
def splitWords (s : String) : List String :=
  (((s.toList).splitOnP (fun c => c.isWhitespace)).map List.asString).filter
    (fun w => w ≠ "")

/-- The per-word extraction loop of `extract_asr_words` (source lines
399-407): process the records in order, the first `KeyError` aborting. -/
def extractWordList : List WordInfo → Except String (List WordTiming)
  | [] => Except.ok []
  | wi :: wis => do
    let w ← extractWordTiming wi
    let rest ← extractWordList wis
    pure (w :: rest)

/-- Mirror of `extract_asr_words` (source lines 394-422): use the
word-level records when the `words` list is present and non-empty
(propagating a `KeyError` from any malformed record), otherwise split the
turn's transcript proportionally over its window. -/
def extract_asr_words (turn : AsrTurn) : Except String (List WordTiming × ℚ × ℚ) := do
  let ws ←
    match turn.words with
    | some (wi :: wis) => extractWordList (wi :: wis)
    | _ =>
      let text := (turn.transcript.getD (turn.text.getD ""))
      let text_words := splitWords text
      let duration := turn.stop - turn.start
      let word_duration : ℚ :=
        if text_words.isEmpty then 0 else duration / (text_words.length : ℚ)
      pure ((List.range text_words.length).map
        (fun i =>
          { word := text_words.getD i ""
            start := turn.start + (i : ℚ) * word_duration
            stop := turn.start + ((i : ℚ) + 1) * word_duration
            confidence := none }))
  pure (ws, turn.start, turn.stop)

/-- A reference segment with its text, as consumed by the batch driver. -/
structure RefSeg where
  start : ℚ
  stop : ℚ
  text : String
deriving DecidableEq, Repr

/-- The per-pair body of the batch loop in `main` (source lines 469-482):
extract the words of the ASR turn — any `KeyError` raised there
propagates, as `main` has no exception handler around the loop — then
align the pair. -/
def processPair (p : AsrTurn × RefSeg) : Except String SegmentAlignment := do
  let (asr_words, asr_start, asr_stop) ← extract_asr_words p.1
  pure (align_segment asr_words (splitWords p.2.text) "seg"
    asr_start asr_stop p.2.start p.2.stop)

/-- Decidable equality of `Except` results, used to state concrete facts
about fallible computations. -/
instance {ε α : Type} [DecidableEq ε] [DecidableEq α] :
    DecidableEq (Except ε α) := fun a b =>
  match a, b with
  | Except.error e, Except.error f => decidable_of_iff (e = f) (by simp)
  | Except.error _, Except.ok _ => Decidable.isFalse (fun hc => Except.noConfusion hc)
  | Except.ok _, Except.error _ => Decidable.isFalse (fun hc => Except.noConfusion hc)
  | Except.ok a, Except.ok b => decidable_of_iff (a = b) (by simp)

/-- The batch loop of `main` over all segment pairs, processed in order;
the first exception aborts the whole run (there is no per-pair
`try`/`except` in the source; the `finally` clause only closes the debug
file). -/
def runAlignments : List (AsrTurn × RefSeg) → Except String (List SegmentAlignment)
  | [] => Except.ok []
  | p :: ps => do
    let al ← processPair p
    let rest ← runAlignments ps
    pure (al :: rest)

/-- One serialized output word (`main`, source lines 499-510). -/
structure OutWord where
  word : String
  operation : String
  timing : Option (ℚ × ℚ)
  asr_word : Option String
  confidence : Option (Option ℚ)
deriving DecidableEq, Repr

/-- Truthiness of `op.ref_word` in Python: present and non-empty. -/
def refTruthy (o : AOp) : Bool :=
  match o.ref_word with
  | some w => w ≠ ""
  | none => false

/-- Serialization of one operation into an output word. -/
def mkOutWord (o : AOp) : OutWord :=
  { word := o.ref_word.getD ""
    operation := o.op.value
    timing := o.adjusted_timing
    asr_word := o.asr_word.map (fun w => w.word)
    confidence := o.asr_word.map (fun w => w.confidence) }

/-- The `words` list serialization of `main` (source lines 499-510): only
operations whose `ref_word` is truthy are emitted, so `DELETE` operations
(whose `ref_word` is `None`) are dropped from the output. -/
def serializeWords (ops : List AOp) : List OutWord :=
  ops.filterMap (fun o => if refTruthy o then some (mkOutWord o) else none)

/-- The operation produced by `mkOperation` for an `INSERT` path entry:
a reference word with no hypothesis word and no timing yet. -/
def mkIns (w : String) : AOp :=
  { op := EditOp.INSERT, asr_word := none, ref_word := some w, adjusted_timing := none }

/-- An insertion operation whose timing has been resolved to `t`. -/
def insOpT (w : String) (t : ℚ × ℚ) : AOp :=
  { op := EditOp.INSERT, asr_word := none, ref_word := some w, adjusted_timing := some t }

/-- The fully assigned insertion run for reference words `ws`: member
`j` occupies `(base + j*tp, base + (j+1)*tp)`. -/
def assignedRun : List String → ℚ → ℚ → List AOp
  | [], _, _ => []
  | w :: ws, base, tp => insOpT w (base, base + tp) :: assignedRun ws (base + tp) tp

/-- The hypothesis-side index consumed by a path entry (`MATCH`,
`SUBSTITUTE` and `DELETE` operations carry one). -/
def hypIdx (e : EditOp × Int × Int) : Option Int :=
  match e.1 with
  | EditOp.INSERT => none
  | _ => some e.2.1

/-- The reference-side index consumed by a path entry (`MATCH`,
`SUBSTITUTE` and `INSERT` operations carry one). -/
def refIdx (e : EditOp × Int × Int) : Option Int :=
  match e.1 with
  | EditOp.DELETE => none
  | _ => some e.2.2

/-- The cost of one alignment move between prefixes: 0 for a pair whose
normalized forms are equal, 1 otherwise (and 1 for insert/delete, encoded
in the constructors of `AlignsIdx`). -/
inductive AlignsIdx (a b : List String) : ℕ → ℕ → ℕ → Prop where
  | nil : AlignsIdx a b 0 0 0
  | diag {i j c} : AlignsIdx a b i j c →
      AlignsIdx a b (i + 1) (j + 1) (c + (if wordsEq a b i j then 0 else 1))
  | del {i j c} : AlignsIdx a b i j c → AlignsIdx a b (i + 1) j (c + 1)
  | ins {i j c} : AlignsIdx a b i j c → AlignsIdx a b i (j + 1) (c + 1)

/-- Tie-break policy as the spec words it (modelled from the spec, for
comparison with the code's recorded decisions): at every cell the
diagonal move is preferred whenever it attains the minimal cost, then
Delete, then Insert.  Arguments are the raw predecessor values, as for
`dpCell`. -/
def specDecision (eq : Bool) (ddiag ddel dins : ℕ) : EditOp :=
  let diagCand := ddiag + (if eq then 0 else 1)
  if diagCand ≤ ddel + 1 ∧ diagCand ≤ dins + 1 then
    (if eq then EditOp.MATCH else EditOp.SUBSTITUTE)
  else if ddel + 1 ≤ dins + 1 then EditOp.DELETE
  else EditOp.INSERT

/-- The spec-side decision at inner cell `(i+1, j+1)`. -/
def specDecisionAt (a b : List String) (i j : ℕ) : EditOp :=
  specDecision (wordsEq a b i j) (dpD a b i j) (dpD a b i (j + 1)) (dpD a b (i + 1) j)

/-- The spec-side path: reconstructed from the per-cell decisions of the
spec's deterministic tie-breaking. Modelled from the spec. -/
def specPath (a b : List String) : ℕ → ℕ → List (EditOp × Int × Int)
  | 0, 0 => []
  | i + 1, 0 => specPath a b i 0 ++ [(EditOp.DELETE, (i : Int), -1)]
  | 0, j + 1 => specPath a b 0 j ++ [(EditOp.INSERT, -1, (j : Int))]
  | i + 1, j + 1 =>
    match specDecisionAt a b i j with
    | EditOp.DELETE => specPath a b i (j + 1) ++ [(EditOp.DELETE, (i : Int), -1)]
    | EditOp.INSERT => specPath a b (i + 1) j ++ [(EditOp.INSERT, -1, (j : Int))]
    | op => specPath a b i j ++ [(op, (i : Int), (j : Int))]
termination_by i j => (i, j)

/-- The pair (if any) that the segment pairer emits for one reference
segment: the first-seen ASR segment of maximal strictly positive overlap. -/
def pairFor (asr_segments : List AsrSeg) (r : TimeSeg) : Option (AsrSeg × TimeSeg) :=
  let br := bestFor asr_segments r
  if 0 < br.1 then
    match br.2 with
    | some a => some (a, r)
    | none => none
  else none

/-- A resolved `MATCH` operation over the hypothesis word `w` timed
`(s, e)`, used as a concrete fixture in witnesses and counterexamples. -/
def mOp (w : String) (s e : ℚ) : AOp :=
  { op := EditOp.MATCH
    asr_word := some { word := w, start := s, stop := e, confidence := none }
    ref_word := some w
    adjusted_timing := some (s, e) }

/-- A resolved `DELETE` operation over the hypothesis word `w` timed
`(s, e)`, used as a concrete fixture. -/
def dOp (w : String) (s e : ℚ) : AOp :=
  { op := EditOp.DELETE
    asr_word := some { word := w, start := s, stop := e, confidence := none }
    ref_word := none
    adjusted_timing := some (s, e) }

/-- A well-formed ASR turn fixture with one fully specified word. -/
def goodTurn : AsrTurn :=
  { words := some [{ word_with_punctuation := none, word := some "tere"
                     start := some 0, stop := some 1, confidence := none }]
    transcript := none
    text := none
    start := 0
    stop := 1 }

/-- A malformed ASR turn fixture: its word record is missing the
required `start` field. -/
def badTurn : AsrTurn :=
  { words := some [{ word_with_punctuation := none, word := some "tere"
                     start := none, stop := some 3, confidence := none }]
    transcript := none
    text := none
    start := 2
    stop := 3 }

/-- A reference segment fixture. -/
def refSegA : RefSeg := { start := 0, stop := 1, text := "tere" }

theorem btPath_cover_aux (a b : List String) :
    ∀ n i j, i + j ≤ n →
      (btPath a b i j).filterMap hypIdx = (List.range i).map Int.ofNat ∧
      (btPath a b i j).filterMap refIdx = (List.range j).map Int.ofNat := by
  intro n
  induction n with
  | zero =>
    intro i j h
    obtain ⟨rfl, rfl⟩ : i = 0 ∧ j = 0 := by omega
    simp [btPath_zero_zero]
  | succ n ih =>
    intro i j h
    match i, j with
    | 0, 0 => simp [btPath_zero_zero]
    | i + 1, 0 =>
      obtain ⟨h1, h2⟩ := ih i 0 (by omega)
      simp [btPath_succ_zero, List.filterMap_append, h1, h2, List.range_succ, hypIdx, refIdx]
    | 0, j + 1 =>
      obtain ⟨h1, h2⟩ := ih 0 j (by omega)
      simp [btPath_zero_succ, List.filterMap_append, h1, h2, List.range_succ, hypIdx, refIdx]
    | i + 1, j + 1 =>
      rw [btPath_succ_succ]
      rcases hD : btDecision a b i j with _ | _ | _ | _
      · obtain ⟨h1, h2⟩ := ih i j (by omega)
        simp [List.filterMap_append, h1, h2, List.range_succ, hypIdx, refIdx]
      · obtain ⟨h1, h2⟩ := ih i j (by omega)
        simp [List.filterMap_append, h1, h2, List.range_succ, hypIdx, refIdx]
      · obtain ⟨h1, h2⟩ := ih (i + 1) j (by omega)
        simp [List.filterMap_append, h1, h2, List.range_succ, hypIdx, refIdx]
      · obtain ⟨h1, h2⟩ := ih i (j + 1) (by omega)
        simp [List.filterMap_append, h1, h2, List.range_succ, hypIdx, refIdx]

theorem btPath_cover (a b : List String) (i j : ℕ) :
    (btPath a b i j).filterMap hypIdx = (List.range i).map Int.ofNat ∧
    (btPath a b i j).filterMap refIdx = (List.range j).map Int.ofNat :=
  btPath_cover_aux a b (i + j) i j le_rfl

theorem filterMap_hypIdx_length (l : List (EditOp × Int × Int)) :
    (l.filterMap hypIdx).length =
      l.countP (fun e => e.1 = EditOp.MATCH) +
      l.countP (fun e => e.1 = EditOp.SUBSTITUTE) +
      l.countP (fun e => e.1 = EditOp.DELETE) := by
  induction l with
  | nil => simp
  | cons x xs ih =>
    rcases x with ⟨op, u, v⟩
    cases op <;> simp [List.filterMap_cons, hypIdx, List.countP_cons, ih] <;> omega

theorem filterMap_refIdx_length (l : List (EditOp × Int × Int)) :
    (l.filterMap refIdx).length =
      l.countP (fun e => e.1 = EditOp.MATCH) +
      l.countP (fun e => e.1 = EditOp.SUBSTITUTE) +
      l.countP (fun e => e.1 = EditOp.INSERT) := by
  induction l with
  | nil => simp
  | cons x xs ih =>
    rcases x with ⟨op, u, v⟩
    cases op <;> simp [List.filterMap_cons, refIdx, List.countP_cons, ih] <;> omega

/-- C1: for every pair of finite token sequences, the alignment path
returned by `compute_edit_distance` contains each hypothesis index exactly
once, in increasing order, across its Match/Substitute/Delete operations
(the filtered index list is literally `[0, …, m-1]`), each reference index
exactly once, in increasing order, across its Match/Substitute/Insert
operations, and consequently `#matches + #substitutions + #deletions = m`
and `#matches + #substitutions + #insertions = n`. -/
theorem C1_path_coverage (a b : List String) :
    (compute_edit_distance a b).2.filterMap hypIdx = (List.range a.length).map Int.ofNat ∧
    (compute_edit_distance a b).2.filterMap refIdx = (List.range b.length).map Int.ofNat ∧
    (compute_edit_distance a b).2.countP (fun e => e.1 = EditOp.MATCH) +
      (compute_edit_distance a b).2.countP (fun e => e.1 = EditOp.SUBSTITUTE) +
      (compute_edit_distance a b).2.countP (fun e => e.1 = EditOp.DELETE) = a.length ∧
    (compute_edit_distance a b).2.countP (fun e => e.1 = EditOp.MATCH) +
      (compute_edit_distance a b).2.countP (fun e => e.1 = EditOp.SUBSTITUTE) +
      (compute_edit_distance a b).2.countP (fun e => e.1 = EditOp.INSERT) = b.length := by
  obtain ⟨h1, h2⟩ := btPath_cover a b a.length b.length
  refine ⟨h1, h2, ?_, ?_⟩
  · have hl := filterMap_hypIdx_length (compute_edit_distance a b).2
    rw [show (compute_edit_distance a b).2
          = btPath a b a.length b.length from rfl, h1] at hl
    simpa using hl.symm
  · have hl := filterMap_refIdx_length (compute_edit_distance a b).2
    rw [show (compute_edit_distance a b).2
          = btPath a b a.length b.length from rfl, h2] at hl
    simpa using hl.symm

theorem dpCell_fst (e : Bool) (x y z : ℕ) :
    (dpCell e x y z).1 = min (x + (if e then 0 else 1)) (min (y + 1) (z + 1)) := by
  simp only [dpCell]
  split_ifs <;> simp_all <;> omega

theorem dpD_zero_right (a b : List String) (i : ℕ) : dpD a b i 0 = i := by
  cases i <;> rfl

theorem dpD_succ_succ (a b : List String) (i j : ℕ) :
    dpD a b (i + 1) (j + 1) =
      min (dpD a b i j + (if wordsEq a b i j then 0 else 1))
        (min (dpD a b i (j + 1) + 1) (dpD a b (i + 1) j + 1)) := by
  rw [dpD_cell, dpCell_fst]

theorem dpD_le_del (a b : List String) (i j : ℕ) :
    dpD a b (i + 1) j ≤ dpD a b i j + 1 := by
  cases j with
  | zero => simp [dpD_zero_right]
  | succ j => rw [dpD_succ_succ]; omega

theorem dpD_le_ins (a b : List String) (i j : ℕ) :
    dpD a b i (j + 1) ≤ dpD a b i j + 1 := by
  cases i with
  | zero => simp [dpD_zero_left]
  | succ i => rw [dpD_succ_succ]; omega

theorem dpD_mem_aux (a b : List String) :
    ∀ n i j, i + j ≤ n → AlignsIdx a b i j (dpD a b i j) := by
  intro n
  induction n with
  | zero =>
    intro i j h
    obtain ⟨rfl, rfl⟩ : i = 0 ∧ j = 0 := by omega
    exact AlignsIdx.nil
  | succ n ih =>
    intro i j h
    match i, j with
    | 0, 0 => exact AlignsIdx.nil
    | i + 1, 0 =>
      have he : dpD a b (i + 1) 0 = dpD a b i 0 + 1 := by
        rw [dpD_succ_zero, dpD_zero_right]
      rw [he]
      exact AlignsIdx.del (ih i 0 (by omega))
    | 0, j + 1 =>
      have he : dpD a b 0 (j + 1) = dpD a b 0 j + 1 := by
        rw [dpD_zero_left, dpD_zero_left]
      rw [he]
      exact AlignsIdx.ins (ih 0 j (by omega))
    | i + 1, j + 1 =>
      have hmin := dpD_succ_succ a b i j
      have hcase :
          dpD a b (i + 1) (j + 1) = dpD a b i j + (if wordsEq a b i j then 0 else 1) ∨
          dpD a b (i + 1) (j + 1) = dpD a b i (j + 1) + 1 ∨
          dpD a b (i + 1) (j + 1) = dpD a b (i + 1) j + 1 := by omega
      rcases hcase with hc | hc | hc
      · rw [hc]; exact AlignsIdx.diag (ih i j (by omega))
      · rw [hc]; exact AlignsIdx.del (ih i (j + 1) (by omega))
      · rw [hc]; exact AlignsIdx.ins (ih (i + 1) j (by omega))

theorem dpD_le_of_aligns (a b : List String) {i j c : ℕ}
    (h : AlignsIdx a b i j c) : dpD a b i j ≤ c := by
  induction h with
  | nil => simp [dpD_zero_left]
  | diag h ih => rw [dpD_succ_succ]; omega
  | del h ih => exact le_trans (dpD_le_del a b _ _) (Nat.add_le_add_right ih 1)
  | ins h ih => exact le_trans (dpD_le_ins a b _ _) (Nat.add_le_add_right ih 1)

theorem btPath_empty_hyp (a b : List String) (j : ℕ) :
    btPath a b 0 j = (List.range j).map (fun r => (EditOp.INSERT, (-1 : Int), (r : Int))) := by
  induction j with
  | zero => rfl
  | succ j ih => rw [btPath_zero_succ, ih, List.range_succ]; simp

theorem btPath_empty_ref (a b : List String) (i : ℕ) :
    btPath a b i 0 = (List.range i).map (fun r => (EditOp.DELETE, (r : Int), (-1 : Int))) := by
  induction i with
  | zero => rfl
  | succ i ih => rw [btPath_succ_zero, ih, List.range_succ]; simp

/-- C2: `compute_edit_distance` is total (it is a Lean function) and the
distance it returns is the least cost over all alignments of the two
sequences under the fixed cost model (0 for a normalized-equal pair, 1
for each substitution, insertion and deletion, as encoded by
`AlignsIdx`); an empty hypothesis yields an all-Insert path of cost `n`
and an empty reference an all-Delete path of cost `m`. -/
theorem C2_min_distance (a b : List String) :
    IsLeast {c | AlignsIdx a b a.length b.length c} (compute_edit_distance a b).1 ∧
    (a = [] →
      compute_edit_distance a b =
        (b.length,
         (List.range b.length).map (fun r => (EditOp.INSERT, (-1 : Int), (r : Int))))) ∧
    (b = [] →
      compute_edit_distance a b =
        (a.length,
         (List.range a.length).map (fun r => (EditOp.DELETE, (r : Int), (-1 : Int))))) := by
  refine ⟨⟨dpD_mem_aux a b (a.length + b.length) a.length b.length le_rfl,
    fun c hc => dpD_le_of_aligns a b hc⟩, ?_, ?_⟩
  · rintro rfl
    simp [compute_edit_distance, dpD_zero_left, btPath_empty_hyp]
  · rintro rfl
    simp [compute_edit_distance, dpD_zero_right, btPath_empty_ref]

/-- C2 witness: at the concrete input of two empty sequences both
hypotheses of the claim theorem are dischargeable. -/
theorem C2_min_distance_witness :
    IsLeast {c | AlignsIdx ([] : List String) [] 0 0 c} 0 ∧
    compute_edit_distance ([] : List String) [] = (0, []) := by
  have h := C2_min_distance [] []
  exact ⟨h.1, h.2.1 rfl⟩

theorem dpCell_snd_spec (e : Bool) (x y z : ℕ) :
    (dpCell e x y z).2 = specDecision e x y z := by
  simp only [dpCell, specDecision]
  split_ifs <;> first | rfl | omega

theorem btDecision_eq_spec (a b : List String) (i j : ℕ) :
    btDecision a b i j = specDecisionAt a b i j :=
  dpCell_snd_spec _ _ _ _

theorem btPath_eq_specPath_aux (a b : List String) :
    ∀ n i j, i + j ≤ n → btPath a b i j = specPath a b i j := by
  intro n
  induction n with
  | zero =>
    intro i j h
    obtain ⟨rfl, rfl⟩ : i = 0 ∧ j = 0 := by omega
    simp [btPath_zero_zero, specPath]
  | succ n ih =>
    intro i j h
    match i, j with
    | 0, 0 => simp [btPath_zero_zero, specPath]
    | i + 1, 0 =>
      rw [btPath_succ_zero, ih i 0 (by omega)]
      simp only [specPath]
    | 0, j + 1 =>
      rw [btPath_zero_succ, ih 0 j (by omega)]
      simp only [specPath]
    | i + 1, j + 1 =>
      rw [btPath_succ_succ, btDecision_eq_spec]
      rcases hd : specDecisionAt a b i j with _ | _ | _ | _
      · simp only [specPath, hd, ih i j (by omega)]
      · simp only [specPath, hd, ih i j (by omega)]
      · simp only [specPath, hd, ih (i + 1) j (by omega)]
      · simp only [specPath, hd, ih i (j + 1) (by omega)]

/-- C3: the alignment path returned by `compute_edit_distance` is exactly
the path obtained by the spec's deterministic tie-breaking (diagonal move
preferred over Delete preferred over Insert), reconstructed cell by cell
from the decisions recorded during the forward pass; moreover every
recorded decision coincides with the preference-ordered argmin of the
three candidate costs. -/
theorem C3_deterministic_tiebreak (a b : List String) :
    (compute_edit_distance a b).2 = specPath a b a.length b.length ∧
    ∀ i j, btDecision a b i j = specDecisionAt a b i j :=
  ⟨btPath_eq_specPath_aux a b (a.length + b.length) a.length b.length le_rfl,
   fun i j => btDecision_eq_spec a b i j⟩

theorem mapIdxFrom_length (f : ℕ → AOp → AOp) (n : ℕ) (xs : List AOp) :
    (mapIdxFrom f n xs).length = xs.length := by
  induction xs generalizing n with
  | nil => rfl
  | cons x xs ih => simp [mapIdxFrom, ih]

theorem mapIdxFrom_append (f : ℕ → AOp → AOp) (n : ℕ) (xs ys : List AOp) :
    mapIdxFrom f n (xs ++ ys) = mapIdxFrom f n xs ++ mapIdxFrom f (n + xs.length) ys := by
  induction xs generalizing n with
  | nil => simp [mapIdxFrom]
  | cons x xs ih =>
    have h1 : mapIdxFrom f n ((x :: xs) ++ ys) = f n x :: mapIdxFrom f (n + 1) (xs ++ ys) := rfl
    have h2 : mapIdxFrom f n (x :: xs) = f n x :: mapIdxFrom f (n + 1) xs := rfl
    rw [h1, ih (n + 1), h2, List.length_cons,
      show n + (xs.length + 1) = n + 1 + xs.length by omega]
    simp

theorem mapIdxFrom_getElem? (f : ℕ → AOp → AOp) (n : ℕ) (xs : List AOp) (k : ℕ) :
    (mapIdxFrom f n xs)[k]? = (xs[k]?).map (f (n + k)) := by
  induction xs generalizing n k with
  | nil => simp [mapIdxFrom]
  | cons x xs ih =>
    cases k with
    | zero => simp [mapIdxFrom]
    | succ k =>
      simp only [mapIdxFrom, List.getElem?_cons_succ, ih (n + 1) k]
      rw [show n + 1 + k = n + (k + 1) by omega]

theorem mapIdxFrom_eq_self (f : ℕ → AOp → AOp) (n : ℕ) (xs : List AOp)
    (h : ∀ k y, xs[k]? = some y → f (n + k) y = y) :
    mapIdxFrom f n xs = xs := by
  induction xs generalizing n with
  | nil => rfl
  | cons x xs ih =>
    have h0 : f n x = x := by simpa using h 0 x (by simp)
    have ht : mapIdxFrom f (n + 1) xs = xs := by
      refine ih (n + 1) (fun k y hk => ?_)
      have := h (k + 1) y (by simpa using hk)
      rwa [show n + (k + 1) = n + 1 + k by omega] at this
    simp [mapIdxFrom, h0, ht]

theorem adjustGo_succ (ops : List AOp) (i n : ℕ) :
    adjustGo ops i (n + 1) = adjustGo (adjustStep ops i) (i + 1) n := rfl

theorem adjustGo_add (ops : List AOp) (i m n : ℕ) :
    adjustGo ops i (m + n) = adjustGo (adjustGo ops i m) (i + m) n := by
  induction m generalizing ops i with
  | zero => simp [adjustGo]
  | succ m ih =>
    rw [show m + 1 + n = (m + n) + 1 by omega, adjustGo_succ, adjustGo_succ,
      ih (adjustStep ops i) (i + 1), show i + 1 + m = i + (m + 1) by omega]

theorem adjustStep_not_insert (ops : List AOp) (i : ℕ)
    (h : (ops.getD i default).op ≠ EditOp.INSERT) : adjustStep ops i = ops := by
  unfold adjustStep
  rw [if_neg h]

theorem adjustGo_fix (ops : List AOp) (i n : ℕ)
    (h : ∀ t, t < n → adjustStep ops (i + t) = ops) : adjustGo ops i n = ops := by
  induction n generalizing i with
  | zero => rfl
  | succ n ih =>
    have h0 : adjustStep ops i = ops := by simpa using h 0 (by omega)
    rw [adjustGo_succ, h0]
    refine ih (i + 1) (fun t ht => ?_)
    have := h (t + 1) (by omega)
    rwa [show i + (t + 1) = i + 1 + t by omega] at this

theorem adjustGo_skip (ops : List AOp) (i n : ℕ)
    (h : ∀ t, t < n → (ops.getD (i + t) default).op ≠ EditOp.INSERT) :
    adjustGo ops i n = ops :=
  adjustGo_fix ops i n (fun t ht => adjustStep_not_insert ops (i + t) (h t ht))

theorem assignedRun_length (ws : List String) (base tp : ℚ) :
    (assignedRun ws base tp).length = ws.length := by
  induction ws generalizing base with
  | nil => rfl
  | cons w ws ih => simp [assignedRun, ih]

theorem assignedRun_getElem? (ws : List String) (base tp : ℚ) (t : ℕ) (w : String)
    (hw : ws[t]? = some w) :
    (assignedRun ws base tp)[t]? =
      some (insOpT w (base + (t : ℚ) * tp, base + ((t : ℚ) + 1) * tp)) := by
  induction ws generalizing base t with
  | nil => simp at hw
  | cons w0 ws ih =>
    cases t with
    | zero =>
      simp only [List.getElem?_cons_zero, Option.some.injEq] at hw
      subst hw
      simp [assignedRun]
    | succ t =>
      simp only [List.getElem?_cons_succ] at hw
      have ihh := ih (base + tp) t hw
      simp only [assignedRun, List.getElem?_cons_succ, ihh, Option.some.injEq]
      congr 1
      rw [Prod.mk.injEq]
      constructor <;> (push_cast; ring)

theorem untimedInsert_mkIns (w : String) : untimedInsert (mkIns w) = true := rfl

theorem isTimed_mkIns (w : String) : isTimed (mkIns w) = false := rfl

theorem isTimed_of_timing (o : AOp) (t : ℚ × ℚ) (h : o.adjusted_timing = some t) :
    isTimed o = true := by
  simp [isTimed, h]

theorem untimedInsert_of_timing (o : AOp) (t : ℚ × ℚ) (h : o.adjusted_timing = some t) :
    untimedInsert o = false := by
  simp [untimedInsert, h]

theorem find?_isTimed_run (ws : List String) (l : List AOp) :
    ((ws.map mkIns) ++ l).find? isTimed = l.find? isTimed := by
  induction ws with
  | nil => simp
  | cons w ws ih =>
    simp [List.find?_cons_of_neg, isTimed_mkIns, ih]

theorem takeWhile_untimed_run (ws : List String) (l : List AOp) :
    ((ws.map mkIns) ++ l).takeWhile untimedInsert = ws.map mkIns ++ l.takeWhile untimedInsert := by
  induction ws with
  | nil => simp
  | cons w ws ih => simp [List.takeWhile_cons, untimedInsert_mkIns, ih]

theorem takeWhile_untimed_stop (o : AOp) (l : List AOp) (h : untimedInsert o = false) :
    (o :: l).takeWhile untimedInsert = [] := by
  simp [List.takeWhile_cons, h]

theorem prevTimedEnd_zero (S : List AOp) : prevTimedEnd S 0 = none := rfl

theorem prevTimedEnd_append (P₀ : List AOp) (a : AOp) (rest : List AOp) (s e : ℚ)
    (ha : a.adjusted_timing = some (s, e)) :
    prevTimedEnd ((P₀ ++ [a]) ++ rest) (P₀.length + 1) = some e := by
  unfold prevTimedEnd
  rw [show P₀.length + 1 = (P₀ ++ [a]).length by simp, List.take_left]
  simp [List.find?_cons_of_pos, isTimed, ha]

theorem prevTimedEnd_here (S : List AOp) (i : ℕ) (o₁ : AOp) (s x : ℚ)
    (h1 : S[i - 1]? = some o₁) (hi : 1 ≤ i) (ht : o₁.adjusted_timing = some (s, x)) :
    prevTimedEnd S i = some x := by
  obtain ⟨i', rfl⟩ : ∃ i', i = i' + 1 := ⟨i - 1, by omega⟩
  simp only [Nat.add_sub_cancel] at h1
  unfold prevTimedEnd
  rw [List.take_succ, h1]
  simp [List.find?_cons_of_pos, isTimed, ht]

theorem nextTimedStart_here (S : List AOp) (i : ℕ) (o₂ : AOp) (s e : ℚ)
    (h2 : S[i + 1]? = some o₂) (ht : o₂.adjusted_timing = some (s, e)) :
    nextTimedStart S i = some s := by
  obtain ⟨hlt, hEq⟩ := List.getElem?_eq_some.mp h2
  unfold nextTimedStart
  rw [List.drop_eq_getElem_cons hlt, hEq]
  simp [List.find?_cons_of_pos, isTimed, ht]

theorem nextTimedStart_skip_run (S : List AOp) (i : ℕ) (ws : List String) (b : AOp)
    (tail : List AOp) (s e : ℚ)
    (hd : S.drop (i + 1) = (ws.map mkIns) ++ (b :: tail))
    (hb : b.adjusted_timing = some (s, e)) :
    nextTimedStart S i = some s := by
  unfold nextTimedStart
  rw [hd, find?_isTimed_run]
  simp [List.find?_cons_of_pos, isTimed, hb]

theorem nextTimedStart_all_run (S : List AOp) (i : ℕ) (ws : List String)
    (hd : S.drop (i + 1) = ws.map mkIns) :
    nextTimedStart S i = none := by
  unfold nextTimedStart
  rw [hd, show ws.map mkIns = (ws.map mkIns) ++ ([] : List AOp) by simp, find?_isTimed_run]
  rfl

theorem groupLo_zero (S : List AOp) : groupLo S 0 = 0 := rfl

theorem groupLo_here (S : List AOp) (i : ℕ) (o₁ : AOp)
    (h1 : S[i - 1]? = some o₁) (hi : 1 ≤ i) (hu : untimedInsert o₁ = false) :
    groupLo S i = i := by
  obtain ⟨i', rfl⟩ : ∃ i', i = i' + 1 := ⟨i - 1, by omega⟩
  simp only [Nat.add_sub_cancel] at h1
  unfold groupLo
  rw [List.take_succ, h1]
  simp [takeWhile_untimed_stop _ _ hu]

theorem groupHi_run_stop (S : List AOp) (i : ℕ) (ws : List String) (b : AOp) (tail : List AOp)
    (hd : S.drop (i + 1) = (ws.map mkIns) ++ (b :: tail)) (hu : untimedInsert b = false) :
    groupHi S i = i + ws.length := by
  unfold groupHi
  rw [hd, takeWhile_untimed_run, takeWhile_untimed_stop _ _ hu]
  simp

theorem groupHi_run_end (S : List AOp) (i : ℕ) (ws : List String)
    (hd : S.drop (i + 1) = ws.map mkIns) :
    groupHi S i = i + ws.length := by
  unfold groupHi
  rw [hd, show ws.map mkIns = (ws.map mkIns) ++ ([] : List AOp) by simp,
    takeWhile_untimed_run]
  simp

theorem groupHi_stop (S : List AOp) (i : ℕ) (b : AOp) (tail : List AOp)
    (hd : S.drop (i + 1) = b :: tail) (hu : untimedInsert b = false) :
    groupHi S i = i := by
  unfold groupHi
  rw [hd, takeWhile_untimed_stop _ _ hu]
  rfl

theorem assignGroup_middle (ws : List String) (lo hi n : ℕ) (base tp : ℚ)
    (h1 : lo ≤ n) (h2 : n + ws.length ≤ hi + 1) :
    mapIdxFrom (assignSlot lo hi base tp) n (ws.map mkIns)
      = assignedRun ws (base + ((n - lo : ℕ) : ℚ) * tp) tp := by
  induction ws generalizing n with
  | nil => simp [mapIdxFrom, assignedRun]
  | cons w ws ih =>
    have hn : n ≤ hi := by simp only [List.length_cons] at h2; omega
    have hhead : assignSlot lo hi base tp n (mkIns w)
        = insOpT w (base + ((n - lo : ℕ) : ℚ) * tp, base + ((n - lo : ℕ) : ℚ) * tp + tp) := by
      unfold assignSlot mkIns insOpT
      rw [if_pos ⟨h1, hn⟩]
      simp only [AlignmentOperation.mk.injEq, Prod.mk.injEq, Option.some.injEq,
        eq_self_iff_true, true_and, and_true]
      ring
    have htail : mapIdxFrom (assignSlot lo hi base tp) (n + 1) (ws.map mkIns)
        = assignedRun ws (base + ((n - lo : ℕ) : ℚ) * tp + tp) tp := by
      have hih := ih (n + 1) (by omega) (by simp only [List.length_cons] at h2; omega)
      have hcast : ((n + 1 - lo : ℕ) : ℚ) = ((n - lo : ℕ) : ℚ) + 1 := by
        rw [show n + 1 - lo = (n - lo) + 1 by omega]
        push_cast
        ring
      rw [hih, hcast]
      congr 1
      ring
    calc mapIdxFrom (assignSlot lo hi base tp) n ((w :: ws).map mkIns)
        = assignSlot lo hi base tp n (mkIns w)
            :: mapIdxFrom (assignSlot lo hi base tp) (n + 1) (ws.map mkIns) := rfl
      _ = insOpT w (base + ((n - lo : ℕ) : ℚ) * tp, base + ((n - lo : ℕ) : ℚ) * tp + tp)
            :: assignedRun ws (base + ((n - lo : ℕ) : ℚ) * tp + tp) tp := by
            rw [hhead, htail]
      _ = assignedRun (w :: ws) (base + ((n - lo : ℕ) : ℚ) * tp) tp := rfl

theorem assignGroup_split (P : List AOp) (ws : List String) (Q : List AOp) (base tp : ℚ)
    (hws : ws ≠ []) :
    assignGroup (P ++ ((ws.map mkIns) ++ Q)) P.length (P.length + ws.length - 1) base tp
      = P ++ (assignedRun ws base tp ++ Q) := by
  have hk : 1 ≤ ws.length := List.length_pos.mpr hws
  unfold assignGroup
  rw [mapIdxFrom_append, mapIdxFrom_append]
  have hP : mapIdxFrom (assignSlot P.length (P.length + ws.length - 1) base tp) 0 P = P := by
    refine mapIdxFrom_eq_self _ 0 P (fun k y hk' => ?_)
    have hlt : k < P.length := (List.getElem?_eq_some.mp hk').1
    unfold assignSlot
    rw [if_neg]
    rintro ⟨hc, -⟩
    omega
  have hM : mapIdxFrom (assignSlot P.length (P.length + ws.length - 1) base tp)
      (0 + P.length) (ws.map mkIns) = assignedRun ws base tp := by
    rw [show (0 + P.length) = P.length by omega]
    rw [assignGroup_middle ws P.length (P.length + ws.length - 1) P.length base tp le_rfl
      (by omega)]
    simp
  have hQ : mapIdxFrom (assignSlot P.length (P.length + ws.length - 1) base tp)
      (0 + P.length + (ws.map mkIns).length) Q = Q := by
    refine mapIdxFrom_eq_self _ _ Q (fun k y hk' => ?_)
    unfold assignSlot
    rw [if_neg]
    rintro ⟨-, hc⟩
    simp only [List.length_map] at hc
    omega
  rw [hP, hM, hQ]

theorem mkIns_op (w : String) : (mkIns w).op = EditOp.INSERT := rfl

theorem insOpT_op (w : String) (t : ℚ × ℚ) : (insOpT w t).op = EditOp.INSERT := rfl

theorem insOpT_timing (w : String) (t : ℚ × ℚ) :
    (insOpT w t).adjusted_timing = some t := rfl

theorem drop_append_cons (P : List AOp) (x : AOp) (T : List AOp) :
    (P ++ (x :: T)).drop (P.length + 1) = T := by
  rw [List.drop_append_eq_append_drop, List.drop_eq_nil_of_le (by omega)]
  simp [show P.length + 1 - P.length = 1 by omega]

theorem getD_append_at (P : List AOp) (x : AOp) (T : List AOp) :
    (P ++ (x :: T)).getD P.length default = x := by
  have h : (P ++ (x :: T))[P.length]? = some x := by
    rw [List.getElem?_append_right le_rfl]
    simp
  simp [List.getD_eq_getElem?_getD, h]

theorem getElem?_last_append (P₀ : List AOp) (a : AOp) (rest : List AOp) :
    ((P₀ ++ [a]) ++ rest)[P₀.length]? = some a := by
  rw [List.getElem?_append_left (by simp)]
  rw [List.getElem?_append_right le_rfl]
  simp

/-- Processing the first insert of a run that sits between two resolved
operations with a positive gap assigns equal sub-intervals of the gap to
the whole group at once. -/
theorem adjustStep_bigbang_mid (P₀ : List AOp) (a : AOp) (w₀ : String) (ws' : List String)
    (b : AOp) (Q₀ : List AOp) (sa p q eb : ℚ)
    (ha : a.adjusted_timing = some (sa, p)) (hb : b.adjusted_timing = some (q, eb))
    (hgap : 0 < q - p) :
    adjustStep ((P₀ ++ [a]) ++ (((w₀ :: ws').map mkIns) ++ (b :: Q₀))) (P₀.length + 1)
      = (P₀ ++ [a]) ++
          (assignedRun (w₀ :: ws') p ((q - p) / (((w₀ :: ws').length : ℕ) : ℚ))
            ++ (b :: Q₀)) := by
  have hiP : (P₀ ++ [a]).length = P₀.length + 1 := by simp
  have hSalt : (P₀ ++ [a]) ++ (((w₀ :: ws').map mkIns) ++ (b :: Q₀))
      = (P₀ ++ [a]) ++ (mkIns w₀ :: ((ws'.map mkIns) ++ (b :: Q₀))) := by simp
  rw [hSalt]
  have hgetD := getD_append_at (P₀ ++ [a]) (mkIns w₀) ((ws'.map mkIns) ++ (b :: Q₀))
  rw [hiP] at hgetD
  have hdrop := drop_append_cons (P₀ ++ [a]) (mkIns w₀) ((ws'.map mkIns) ++ (b :: Q₀))
  rw [hiP] at hdrop
  have hpe := prevTimedEnd_append P₀ a (mkIns w₀ :: ((ws'.map mkIns) ++ (b :: Q₀))) sa p ha
  have hns := nextTimedStart_skip_run
    ((P₀ ++ [a]) ++ (mkIns w₀ :: ((ws'.map mkIns) ++ (b :: Q₀)))) (P₀.length + 1)
    ws' b Q₀ q eb hdrop hb
  have h1a : ((P₀ ++ [a]) ++ (mkIns w₀ :: ((ws'.map mkIns) ++ (b :: Q₀))))[P₀.length + 1 - 1]?
      = some a := by
    rw [show P₀.length + 1 - 1 = P₀.length by omega]
    exact getElem?_last_append P₀ a _
  have hlo := groupLo_here _ (P₀.length + 1) a h1a (by omega)
    (untimedInsert_of_timing a (sa, p) ha)
  have hhi := groupHi_run_stop _ (P₀.length + 1) ws' b Q₀ hdrop
    (untimedInsert_of_timing b (q, eb) hb)
  simp only [adjustStep, hgetD, mkIns_op, hpe, hns, hlo, hhi]
  rw [if_pos hgap]
  rw [show P₀.length + 1 + ws'.length + 1 - (P₀.length + 1) = (w₀ :: ws').length by
    simp only [List.length_cons]; omega]
  rw [← hSalt,
    show P₀.length + 1 = (P₀ ++ [a]).length from hiP.symm,
    show (P₀ ++ [a]).length + ws'.length
        = (P₀ ++ [a]).length + (w₀ :: ws').length - 1 by
      simp only [List.length_cons]; omega]
  exact assignGroup_split (P₀ ++ [a]) (w₀ :: ws') (b :: Q₀) p _ (by simp)

/-- Processing the first insert of a run at the very start of the segment
places the group immediately before the first resolved operation, with
0.1 per word. -/
theorem adjustStep_bigbang_start (w₀ : String) (ws' : List String) (b : AOp) (Q₀ : List AOp)
    (q eb : ℚ) (hb : b.adjusted_timing = some (q, eb)) :
    adjustStep (((w₀ :: ws').map mkIns) ++ (b :: Q₀)) 0
      = assignedRun (w₀ :: ws') (q - (((w₀ :: ws').length : ℕ) : ℚ) * (1 / 10)) (1 / 10)
          ++ (b :: Q₀) := by
  have hSalt : ((w₀ :: ws').map mkIns) ++ (b :: Q₀)
      = mkIns w₀ :: ((ws'.map mkIns) ++ (b :: Q₀)) := by simp
  rw [hSalt]
  have hgetD : (mkIns w₀ :: ((ws'.map mkIns) ++ (b :: Q₀))).getD 0 default = mkIns w₀ := rfl
  have hdrop : (mkIns w₀ :: ((ws'.map mkIns) ++ (b :: Q₀))).drop 1
      = (ws'.map mkIns) ++ (b :: Q₀) := rfl
  have hhi := groupHi_run_stop _ 0 ws' b Q₀ hdrop (untimedInsert_of_timing b (q, eb) hb)
  have hfind : ((mkIns w₀ :: ((ws'.map mkIns) ++ (b :: Q₀))).find? isTimed) = some b := by
    rw [show mkIns w₀ :: ((ws'.map mkIns) ++ (b :: Q₀))
        = (((w₀ :: ws').map mkIns) ++ (b :: Q₀)) from hSalt.symm, find?_isTimed_run]
    exact List.find?_cons_of_pos _ (isTimed_of_timing b (q, eb) hb)
  have hnsv : ((mkIns w₀ :: ((ws'.map mkIns) ++ (b :: Q₀))).find? isTimed).bind
      (fun o => o.adjusted_timing.map Prod.fst) = some q := by
    rw [hfind]
    simp [hb]
  simp only [adjustStep, hgetD, mkIns_op, prevTimedEnd_zero, groupLo_zero, hhi,
    handle_edge_insertions, hnsv, if_pos]
  rw [show (0 : ℕ) + ws'.length + 1 - 0 = (w₀ :: ws').length by
    simp only [List.length_cons]; omega]
  rw [← hSalt]
  rw [show ((w₀ :: ws').map mkIns) ++ (b :: Q₀)
      = ([] : List AOp) ++ (((w₀ :: ws').map mkIns) ++ (b :: Q₀)) from rfl,
    show (0 : ℕ) + ws'.length
      = ([] : List AOp).length + (w₀ :: ws').length - 1 by
        simp only [List.length_cons, List.length_nil]; omega]
  have := assignGroup_split ([] : List AOp) (w₀ :: ws') (b :: Q₀)
    (q - (((w₀ :: ws').length : ℕ) : ℚ) * (1 / 10)) (1 / 10) (by simp)
  simpa using this

/-- Processing the first insert of a run at the very end of the segment
places the group immediately after the nearest resolved operation, with
0.1 per word. -/
theorem adjustStep_bigbang_end (P₀ : List AOp) (a : AOp) (w₀ : String) (ws' : List String)
    (sa p : ℚ) (ha : a.adjusted_timing = some (sa, p)) :
    adjustStep ((P₀ ++ [a]) ++ ((w₀ :: ws').map mkIns)) (P₀.length + 1)
      = (P₀ ++ [a]) ++ assignedRun (w₀ :: ws') p (1 / 10) := by
  have hiP : (P₀ ++ [a]).length = P₀.length + 1 := by simp
  have hSalt : (P₀ ++ [a]) ++ ((w₀ :: ws').map mkIns)
      = (P₀ ++ [a]) ++ (mkIns w₀ :: (ws'.map mkIns)) := by simp
  rw [hSalt]
  have hgetD := getD_append_at (P₀ ++ [a]) (mkIns w₀) (ws'.map mkIns)
  rw [hiP] at hgetD
  have hdrop := drop_append_cons (P₀ ++ [a]) (mkIns w₀) (ws'.map mkIns)
  rw [hiP] at hdrop
  have hpe := prevTimedEnd_append P₀ a (mkIns w₀ :: (ws'.map mkIns)) sa p ha
  have hns := nextTimedStart_all_run _ (P₀.length + 1) ws' hdrop
  have h1a : ((P₀ ++ [a]) ++ (mkIns w₀ :: (ws'.map mkIns)))[P₀.length + 1 - 1]?
      = some a := by
    rw [show P₀.length + 1 - 1 = P₀.length by omega]
    exact getElem?_last_append P₀ a _
  have hlo := groupLo_here _ (P₀.length + 1) a h1a (by omega)
    (untimedInsert_of_timing a (sa, p) ha)
  have hhi := groupHi_run_end _ (P₀.length + 1) ws' hdrop
  have hpev : (prevTimedEnd ((P₀ ++ [a]) ++ (mkIns w₀ :: (ws'.map mkIns)))
      (P₀.length + 1)).getD 0 = p := by
    rw [hpe]
    rfl
  simp only [adjustStep, hgetD, mkIns_op, hpe, hns, hlo, hhi,
    handle_edge_insertions, hpev, if_pos]
  rw [if_neg (show ¬ (P₀.length + 1 = 0) by omega)]
  rw [← hSalt,
    show P₀.length + 1 = (P₀ ++ [a]).length from hiP.symm,
    show (P₀ ++ [a]).length + ws'.length
        = (P₀ ++ [a]).length + (w₀ :: ws').length - 1 by
      simp only [List.length_cons]; omega]
  rw [show (P₀ ++ [a]) ++ ((w₀ :: ws').map mkIns)
      = (P₀ ++ [a]) ++ (((w₀ :: ws').map mkIns) ++ ([] : List AOp)) by simp]
  have := assignGroup_split (P₀ ++ [a]) (w₀ :: ws') ([] : List AOp) p (1 / 10) (by simp)
  simpa using this

/-- Processing the first insert of a segment that consists entirely of
insertions anchors the run at time zero with 0.1 per word. -/
theorem adjustStep_bigbang_all (w₀ : String) (ws' : List String) :
    adjustStep ((w₀ :: ws').map mkIns) 0 = assignedRun (w₀ :: ws') 0 (1 / 10) := by
  have hSalt : (w₀ :: ws').map mkIns = mkIns w₀ :: (ws'.map mkIns) := by simp
  rw [hSalt]
  have hgetD : (mkIns w₀ :: (ws'.map mkIns)).getD 0 default = mkIns w₀ := rfl
  have hdrop : (mkIns w₀ :: (ws'.map mkIns)).drop 1 = ws'.map mkIns := rfl
  have hhi := groupHi_run_end _ 0 ws' hdrop
  have hfind : ((mkIns w₀ :: (ws'.map mkIns)).find? isTimed) = none := by
    rw [show mkIns w₀ :: (ws'.map mkIns) = ((w₀ :: ws').map mkIns) from hSalt.symm,
      show (w₀ :: ws').map mkIns = ((w₀ :: ws').map mkIns) ++ ([] : List AOp) by simp,
      find?_isTimed_run]
    rfl
  have hnsv : ((mkIns w₀ :: (ws'.map mkIns)).find? isTimed).bind
      (fun o => o.adjusted_timing.map Prod.fst) = none := by
    rw [hfind]
    rfl
  simp only [adjustStep, hgetD, mkIns_op, prevTimedEnd_zero, groupLo_zero, hhi,
    handle_edge_insertions, hnsv, if_pos]
  rw [← hSalt]
  rw [show (w₀ :: ws').map mkIns
      = ([] : List AOp) ++ (((w₀ :: ws').map mkIns) ++ ([] : List AOp)) by simp,
    show (0 : ℕ) + ws'.length
      = ([] : List AOp).length + (w₀ :: ws').length - 1 by
        simp only [List.length_cons, List.length_nil]; omega]
  have := assignGroup_split ([] : List AOp) (w₀ :: ws') ([] : List AOp) 0 (1 / 10) (by simp)
  simpa using this

theorem assignGroup_self (S : List AOp) (i : ℕ) (w : String) (x d : ℚ)
    (h2 : S[i]? = some (insOpT w (x, x + d))) :
    assignGroup S i i x d = S := by
  unfold assignGroup
  refine mapIdxFrom_eq_self _ 0 S (fun k y hk => ?_)
  rw [Nat.zero_add]
  by_cases hki : k = i
  · subst hki
    have hy : y = insOpT w (x, x + d) := Option.some.inj (hk.symm.trans h2)
    rw [hy]
    unfold assignSlot
    rw [if_pos ⟨le_rfl, le_rfl⟩]
    simp [insOpT]
  · unfold assignSlot
    rw [if_neg]
    rintro ⟨hik, hki'⟩
    exact hki (le_antisymm hki' hik)

/-- Re-processing an already-assigned run member whose neighbours carry
the adjacent sub-intervals recomputes exactly the same timing. -/
theorem adjustStep_fix_between (S : List AOp) (i : ℕ) (o₁ o₂ : AOp) (w : String)
    (x d s₁ e₂ : ℚ) (hi : 1 ≤ i)
    (h1 : S[i - 1]? = some o₁) (ht1 : o₁.adjusted_timing = some (s₁, x))
    (h2 : S[i]? = some (insOpT w (x, x + d)))
    (h3 : S[i + 1]? = some o₂) (ht2 : o₂.adjusted_timing = some (x + d, e₂))
    (hd : 0 < d) :
    adjustStep S i = S := by
  have hgetD : S.getD i default = insOpT w (x, x + d) := by
    simp [List.getD_eq_getElem?_getD, h2]
  have hpe := prevTimedEnd_here S i o₁ s₁ x h1 hi ht1
  have hns := nextTimedStart_here S i o₂ (x + d) e₂ h3 ht2
  have hlo := groupLo_here S i o₁ h1 hi (untimedInsert_of_timing o₁ (s₁, x) ht1)
  have hstop : S.drop (i + 1) = o₂ :: S.drop (i + 2) := by
    obtain ⟨hlt, hEq⟩ := List.getElem?_eq_some.mp h3
    rw [List.drop_eq_getElem_cons hlt, hEq]
  have hhi := groupHi_stop S i o₂ (S.drop (i + 2)) hstop
    (untimedInsert_of_timing o₂ (x + d, e₂) ht2)
  simp only [adjustStep, hgetD, insOpT_op, hpe, hns, hlo, hhi, if_pos]
  rw [if_pos (show (0 : ℚ) < x + d - x by linarith)]
  rw [show i + 1 - i = 1 by omega]
  rw [show (x + d - x) / ((1 : ℕ) : ℚ) = d by push_cast; ring]
  exact assignGroup_self S i w x d h2

/-- Re-processing the last member of an edge run (no resolved operation
after it) recomputes the same 0.1-wide slot through the edge fallback. -/
theorem adjustStep_fix_last (S : List AOp) (i : ℕ) (o₁ : AOp) (w : String) (s₁ x : ℚ)
    (hi : 1 ≤ i)
    (h1 : S[i - 1]? = some o₁) (ht1 : o₁.adjusted_timing = some (s₁, x))
    (h2 : S[i]? = some (insOpT w (x, x + 1 / 10)))
    (hlen : S.length = i + 1) :
    adjustStep S i = S := by
  have hgetD : S.getD i default = insOpT w (x, x + 1 / 10) := by
    simp [List.getD_eq_getElem?_getD, h2]
  have hpe := prevTimedEnd_here S i o₁ s₁ x h1 hi ht1
  have hdropnil : S.drop (i + 1) = [] := List.drop_eq_nil_of_le (by omega)
  have hns : nextTimedStart S i = none := by
    unfold nextTimedStart
    rw [hdropnil]
    rfl
  have hlo := groupLo_here S i o₁ h1 hi (untimedInsert_of_timing o₁ (s₁, x) ht1)
  have hhi : groupHi S i = i := by
    unfold groupHi
    rw [hdropnil]
    rfl
  have hpev : (prevTimedEnd S i).getD 0 = x := by
    rw [hpe]
    rfl
  simp only [adjustStep, hgetD, insOpT_op, hpe, hns, hlo, hhi,
    handle_edge_insertions, hpev, if_pos]
  rw [if_neg (show ¬ i = 0 by omega)]
  exact assignGroup_self S i w x (1 / 10) h2

theorem getElem?_append_mid (P X : List AOp) (m : ℕ) :
    (P ++ X)[P.length + m]? = X[m]? := by
  rw [List.getElem?_append_right (by omega)]
  simp

theorem assignedRun_member (ws : List String) (base tp : ℚ) (m : ℕ) (w : String)
    (hw : ws[m]? = some w) :
    (assignedRun ws base tp)[m]?
      = some (insOpT w (base + (m : ℚ) * tp, base + (m : ℚ) * tp + tp)) := by
  rw [assignedRun_getElem? ws base tp m w hw,
    show base + ((m : ℚ) + 1) * tp = base + (m : ℚ) * tp + tp by ring]

theorem run_member_fact (P : List AOp) (ws : List String) (R : List AOp) (base tp : ℚ)
    (m : ℕ) (w : String) (hw : ws[m]? = some w) :
    (P ++ (assignedRun ws base tp ++ R))[P.length + m]?
      = some (insOpT w (base + (m : ℚ) * tp, base + (m : ℚ) * tp + tp)) := by
  rw [getElem?_append_mid,
    List.getElem?_append_left (by rw [assignedRun_length]; exact (List.getElem?_eq_some.mp hw).1)]
  exact assignedRun_member ws base tp m w hw

theorem getElem?_after_run (P : List AOp) (ws : List String) (R : List AOp) (base tp : ℚ) :
    (P ++ (assignedRun ws base tp ++ R))[P.length + ws.length]? = R[0]? := by
  rw [getElem?_append_mid, List.getElem?_append_right (by rw [assignedRun_length]),
    assignedRun_length]
  simp

theorem getD_op_ne_insert (L rest : List AOp) (t : ℕ) (ht : t < L.length)
    (hL : ∀ o ∈ L, o.op ≠ EditOp.INSERT) :
    ((L ++ rest).getD t default).op ≠ EditOp.INSERT := by
  have h1 : (L ++ rest)[t]? = L[t]? := List.getElem?_append_left ht
  obtain ⟨y, hy⟩ : ∃ y, L[t]? = some y := ⟨_, List.getElem?_eq_getElem ht⟩
  have h2 : (L ++ rest).getD t default = y := by
    simp [List.getD_eq_getElem?_getD, h1, hy]
  rw [h2]
  exact hL y (List.getElem?_mem hy)

theorem getD_op_ne_insert_right (A T : List AOp) (t : ℕ)
    (hT : ∀ o ∈ T, o.op ≠ EditOp.INSERT) (ht : t < T.length) :
    ((A ++ T).getD (A.length + t) default).op ≠ EditOp.INSERT := by
  have h1 : (A ++ T)[A.length + t]? = T[t]? := getElem?_append_mid A T t
  obtain ⟨y, hy⟩ : ∃ y, T[t]? = some y := ⟨_, List.getElem?_eq_getElem ht⟩
  have h2 : (A ++ T).getD (A.length + t) default = y := by
    simp [List.getD_eq_getElem?_getD, h1, hy]
  rw [h2]
  exact hT y (List.getElem?_mem hy)

/-- Full characterization of `adjust_timing_for_insertions` on a segment
of shape `pre ++ run ++ post`: the run of inserted reference words sits
between a resolved operation ending at `p` and a resolved operation
starting at `q` with a positive gap, and receives equal sub-intervals of
the gap; all other operations are untouched. -/
theorem adjust_family_mid (P₀ : List AOp) (a : AOp) (w₀ : String) (ws' : List String)
    (b : AOp) (Q₀ : List AOp) (sa p q eb : ℚ)
    (hP : ∀ o ∈ P₀ ++ [a], o.op ≠ EditOp.INSERT)
    (hQ : ∀ o ∈ b :: Q₀, o.op ≠ EditOp.INSERT)
    (ha : a.adjusted_timing = some (sa, p)) (hb : b.adjusted_timing = some (q, eb))
    (hgap : 0 < q - p) :
    adjust_timing_for_insertions
        ((P₀ ++ [a]) ++ (((w₀ :: ws').map mkIns) ++ (b :: Q₀)))
      = (P₀ ++ [a]) ++
          (assignedRun (w₀ :: ws') p ((q - p) / (((w₀ :: ws').length : ℕ) : ℚ))
            ++ (b :: Q₀)) := by
  have hPlen : (P₀ ++ [a]).length = P₀.length + 1 := by simp
  have htp : 0 < (q - p) / (((w₀ :: ws').length : ℕ) : ℚ) :=
    div_pos hgap (by exact_mod_cast Nat.succ_pos ws'.length)
  have hN : ((P₀ ++ [a]) ++ (((w₀ :: ws').map mkIns) ++ (b :: Q₀))).length
      = (P₀.length + 1) + ((ws'.length + (Q₀.length + 1)) + 1) := by
    simp only [List.length_append, List.length_cons, List.length_map, List.length_nil]
    omega
  unfold adjust_timing_for_insertions
  rw [hN, adjustGo_add]
  have hskip1 : adjustGo ((P₀ ++ [a]) ++ (((w₀ :: ws').map mkIns) ++ (b :: Q₀))) 0
      (P₀.length + 1) = (P₀ ++ [a]) ++ (((w₀ :: ws').map mkIns) ++ (b :: Q₀)) := by
    refine adjustGo_skip _ 0 _ (fun t ht => ?_)
    rw [Nat.zero_add]
    exact getD_op_ne_insert (P₀ ++ [a]) _ t (by omega) hP
  rw [hskip1, show 0 + (P₀.length + 1) = P₀.length + 1 by omega, adjustGo_succ,
    adjustStep_bigbang_mid P₀ a w₀ ws' b Q₀ sa p q eb ha hb hgap, adjustGo_add]
  have hfix : adjustGo
      ((P₀ ++ [a]) ++
        (assignedRun (w₀ :: ws') p ((q - p) / (((w₀ :: ws').length : ℕ) : ℚ))
          ++ (b :: Q₀)))
      (P₀.length + 1 + 1) ws'.length
      = (P₀ ++ [a]) ++
          (assignedRun (w₀ :: ws') p ((q - p) / (((w₀ :: ws').length : ℕ) : ℚ))
            ++ (b :: Q₀)) := by
    refine adjustGo_fix _ _ _ (fun t ht => ?_)
    obtain ⟨u1, hu1⟩ : ∃ w, (w₀ :: ws')[t]? = some w :=
      ⟨_, List.getElem?_eq_getElem (by simp only [List.length_cons]; omega)⟩
    obtain ⟨u2, hu2⟩ : ∃ w, (w₀ :: ws')[t + 1]? = some w :=
      ⟨_, List.getElem?_eq_getElem (by simp only [List.length_cons]; omega)⟩
    have hF1 : ((P₀ ++ [a]) ++
        (assignedRun (w₀ :: ws') p ((q - p) / (((w₀ :: ws').length : ℕ) : ℚ))
          ++ (b :: Q₀)))[P₀.length + 1 + 1 + t - 1]?
        = some (insOpT u1
            (p + (t : ℚ) * ((q - p) / (((w₀ :: ws').length : ℕ) : ℚ)),
             p + (t : ℚ) * ((q - p) / (((w₀ :: ws').length : ℕ) : ℚ))
               + (q - p) / (((w₀ :: ws').length : ℕ) : ℚ))) := by
      rw [show P₀.length + 1 + 1 + t - 1 = (P₀ ++ [a]).length + t by
        simp only [List.length_append, List.length_cons, List.length_nil]; omega]
      exact run_member_fact (P₀ ++ [a]) (w₀ :: ws') (b :: Q₀) p _ t u1 hu1
    have hF2 : ((P₀ ++ [a]) ++
        (assignedRun (w₀ :: ws') p ((q - p) / (((w₀ :: ws').length : ℕ) : ℚ))
          ++ (b :: Q₀)))[P₀.length + 1 + 1 + t]?
        = some (insOpT u2
            (p + (t : ℚ) * ((q - p) / (((w₀ :: ws').length : ℕ) : ℚ))
               + (q - p) / (((w₀ :: ws').length : ℕ) : ℚ),
             p + (t : ℚ) * ((q - p) / (((w₀ :: ws').length : ℕ) : ℚ))
               + (q - p) / (((w₀ :: ws').length : ℕ) : ℚ)
               + (q - p) / (((w₀ :: ws').length : ℕ) : ℚ))) := by
      rw [show P₀.length + 1 + 1 + t = (P₀ ++ [a]).length + (t + 1) by
        simp only [List.length_append, List.length_cons, List.length_nil]; omega]
      rw [run_member_fact (P₀ ++ [a]) (w₀ :: ws') (b :: Q₀) p _ (t + 1) u2 hu2]
      rw [show p + ((t + 1 : ℕ) : ℚ) * ((q - p) / (((w₀ :: ws').length : ℕ) : ℚ))
          = p + (t : ℚ) * ((q - p) / (((w₀ :: ws').length : ℕ) : ℚ))
            + (q - p) / (((w₀ :: ws').length : ℕ) : ℚ) by push_cast; ring]
    by_cases hlast : t + 1 < ws'.length
    · obtain ⟨u3, hu3⟩ : ∃ w, (w₀ :: ws')[t + 2]? = some w :=
        ⟨_, List.getElem?_eq_getElem (by simp only [List.length_cons]; omega)⟩
      have hF3 : ((P₀ ++ [a]) ++
          (assignedRun (w₀ :: ws') p ((q - p) / (((w₀ :: ws').length : ℕ) : ℚ))
            ++ (b :: Q₀)))[P₀.length + 1 + 1 + t + 1]?
          = some (insOpT u3
              (p + (t : ℚ) * ((q - p) / (((w₀ :: ws').length : ℕ) : ℚ))
                 + (q - p) / (((w₀ :: ws').length : ℕ) : ℚ)
                 + (q - p) / (((w₀ :: ws').length : ℕ) : ℚ),
               p + (t : ℚ) * ((q - p) / (((w₀ :: ws').length : ℕ) : ℚ))
                 + (q - p) / (((w₀ :: ws').length : ℕ) : ℚ)
                 + (q - p) / (((w₀ :: ws').length : ℕ) : ℚ)
                 + (q - p) / (((w₀ :: ws').length : ℕ) : ℚ))) := by
        rw [show P₀.length + 1 + 1 + t + 1 = (P₀ ++ [a]).length + (t + 2) by
          simp only [List.length_append, List.length_cons, List.length_nil]; omega]
        rw [run_member_fact (P₀ ++ [a]) (w₀ :: ws') (b :: Q₀) p _ (t + 2) u3 hu3]
        rw [show p + ((t + 2 : ℕ) : ℚ) * ((q - p) / (((w₀ :: ws').length : ℕ) : ℚ))
            = p + (t : ℚ) * ((q - p) / (((w₀ :: ws').length : ℕ) : ℚ))
              + (q - p) / (((w₀ :: ws').length : ℕ) : ℚ)
              + (q - p) / (((w₀ :: ws').length : ℕ) : ℚ) by push_cast; ring]
      exact adjustStep_fix_between _ (P₀.length + 1 + 1 + t) _ _ u2 _ _ _ _
        (by omega) hF1 (insOpT_timing _ _) hF2 hF3 (insOpT_timing _ _) htp
    · have hkq : (w₀ :: ws').length = t + 2 := by
        simp only [List.length_cons]
        omega
      have hq : q = p + (t : ℚ) * ((q - p) / (((w₀ :: ws').length : ℕ) : ℚ))
          + (q - p) / (((w₀ :: ws').length : ℕ) : ℚ)
          + (q - p) / (((w₀ :: ws').length : ℕ) : ℚ) := by
        rw [hkq, show (((t + 2 : ℕ) : ℕ) : ℚ) = (t : ℚ) + 2 by push_cast; ring]
        have hden : (t : ℚ) + 2 ≠ 0 := by positivity
        field_simp
        ring
      have hF3 : ((P₀ ++ [a]) ++
          (assignedRun (w₀ :: ws') p ((q - p) / (((w₀ :: ws').length : ℕ) : ℚ))
            ++ (b :: Q₀)))[P₀.length + 1 + 1 + t + 1]? = some b := by
        rw [show P₀.length + 1 + 1 + t + 1 = (P₀ ++ [a]).length + (w₀ :: ws').length by
          simp only [List.length_append, List.length_cons, List.length_nil]; omega]
        rw [getElem?_after_run]
        simp
      have hbt : b.adjusted_timing
          = some (p + (t : ℚ) * ((q - p) / (((w₀ :: ws').length : ℕ) : ℚ))
              + (q - p) / (((w₀ :: ws').length : ℕ) : ℚ)
              + (q - p) / (((w₀ :: ws').length : ℕ) : ℚ), eb) := by
        rw [hb, ← hq]
      exact adjustStep_fix_between _ (P₀.length + 1 + 1 + t) _ b u2 _ _ _ eb
        (by omega) hF1 (insOpT_timing _ _) hF2 hF3 hbt htp
  rw [hfix]
  have hskip2 : adjustGo
      ((P₀ ++ [a]) ++
        (assignedRun (w₀ :: ws') p ((q - p) / (((w₀ :: ws').length : ℕ) : ℚ))
          ++ (b :: Q₀)))
      (P₀.length + 1 + 1 + ws'.length) (Q₀.length + 1)
      = (P₀ ++ [a]) ++
          (assignedRun (w₀ :: ws') p ((q - p) / (((w₀ :: ws').length : ℕ) : ℚ))
            ++ (b :: Q₀)) := by
    refine adjustGo_skip _ _ _ (fun t ht => ?_)
    rw [show (P₀ ++ [a]) ++
          (assignedRun (w₀ :: ws') p ((q - p) / (((w₀ :: ws').length : ℕ) : ℚ))
            ++ (b :: Q₀))
        = ((P₀ ++ [a]) ++
            assignedRun (w₀ :: ws') p ((q - p) / (((w₀ :: ws').length : ℕ) : ℚ)))
          ++ (b :: Q₀) from (List.append_assoc _ _ _).symm]
    rw [show P₀.length + 1 + 1 + ws'.length + t
        = ((P₀ ++ [a]) ++
            assignedRun (w₀ :: ws') p ((q - p) / (((w₀ :: ws').length : ℕ) : ℚ))).length
          + t by
      simp only [List.length_append, List.length_cons, List.length_nil, assignedRun_length]
      omega]
    exact getD_op_ne_insert_right _ _ t hQ (by simp only [List.length_cons]; omega)
  rw [hskip2]

theorem run_member_fact0 (ws : List String) (R : List AOp) (base tp : ℚ) (m : ℕ)
    (w : String) (hw : ws[m]? = some w) :
    (assignedRun ws base tp ++ R)[m]?
      = some (insOpT w (base + (m : ℚ) * tp, base + (m : ℚ) * tp + tp)) := by
  rw [List.getElem?_append_left
    (by rw [assignedRun_length]; exact (List.getElem?_eq_some.mp hw).1)]
  exact assignedRun_member ws base tp m w hw

theorem getElem?_after_run0 (ws : List String) (R : List AOp) (base tp : ℚ) :
    (assignedRun ws base tp ++ R)[ws.length]? = R[0]? := by
  rw [List.getElem?_append_right (by rw [assignedRun_length]), assignedRun_length]
  simp

theorem run_member_factP (P : List AOp) (ws : List String) (base tp : ℚ) (m : ℕ)
    (w : String) (hw : ws[m]? = some w) :
    (P ++ assignedRun ws base tp)[P.length + m]?
      = some (insOpT w (base + (m : ℚ) * tp, base + (m : ℚ) * tp + tp)) := by
  rw [getElem?_append_mid]
  exact assignedRun_member ws base tp m w hw

/-- Full characterization of `adjust_timing_for_insertions` when the
insertion run opens the segment: the run is placed immediately before the
first resolved operation, 0.1 per word, counting backward from its start. -/
theorem adjust_family_start (w₀ : String) (ws' : List String) (b : AOp) (Q₀ : List AOp)
    (q eb : ℚ)
    (hQ : ∀ o ∈ b :: Q₀, o.op ≠ EditOp.INSERT)
    (hb : b.adjusted_timing = some (q, eb)) :
    adjust_timing_for_insertions (((w₀ :: ws').map mkIns) ++ (b :: Q₀))
      = assignedRun (w₀ :: ws') (q - (((w₀ :: ws').length : ℕ) : ℚ) * (1 / 10)) (1 / 10)
          ++ (b :: Q₀) := by
  have hN : (((w₀ :: ws').map mkIns) ++ (b :: Q₀)).length
      = (ws'.length + (Q₀.length + 1)) + 1 := by
    simp only [List.length_append, List.length_cons, List.length_map]
    omega
  have hd10 : (0 : ℚ) < 1 / 10 := by norm_num
  unfold adjust_timing_for_insertions
  rw [hN, adjustGo_succ, adjustStep_bigbang_start w₀ ws' b Q₀ q eb hb, adjustGo_add,
    Nat.zero_add]
  have hfix : adjustGo
      (assignedRun (w₀ :: ws') (q - (((w₀ :: ws').length : ℕ) : ℚ) * (1 / 10)) (1 / 10)
        ++ (b :: Q₀)) 1 ws'.length
      = assignedRun (w₀ :: ws') (q - (((w₀ :: ws').length : ℕ) : ℚ) * (1 / 10)) (1 / 10)
          ++ (b :: Q₀) := by
    refine adjustGo_fix _ _ _ (fun t ht => ?_)
    obtain ⟨u1, hu1⟩ : ∃ w, (w₀ :: ws')[t]? = some w :=
      ⟨_, List.getElem?_eq_getElem (by simp only [List.length_cons]; omega)⟩
    obtain ⟨u2, hu2⟩ : ∃ w, (w₀ :: ws')[t + 1]? = some w :=
      ⟨_, List.getElem?_eq_getElem (by simp only [List.length_cons]; omega)⟩
    have hF1 : (assignedRun (w₀ :: ws')
        (q - (((w₀ :: ws').length : ℕ) : ℚ) * (1 / 10)) (1 / 10)
        ++ (b :: Q₀))[1 + t - 1]?
        = some (insOpT u1
            (q - (((w₀ :: ws').length : ℕ) : ℚ) * (1 / 10) + (t : ℚ) * (1 / 10),
             q - (((w₀ :: ws').length : ℕ) : ℚ) * (1 / 10) + (t : ℚ) * (1 / 10)
               + 1 / 10)) := by
      rw [show 1 + t - 1 = t by omega]
      exact run_member_fact0 (w₀ :: ws') (b :: Q₀) _ _ t u1 hu1
    have hF2 : (assignedRun (w₀ :: ws')
        (q - (((w₀ :: ws').length : ℕ) : ℚ) * (1 / 10)) (1 / 10)
        ++ (b :: Q₀))[1 + t]?
        = some (insOpT u2
            (q - (((w₀ :: ws').length : ℕ) : ℚ) * (1 / 10) + (t : ℚ) * (1 / 10)
               + 1 / 10,
             q - (((w₀ :: ws').length : ℕ) : ℚ) * (1 / 10) + (t : ℚ) * (1 / 10)
               + 1 / 10 + 1 / 10)) := by
      rw [show 1 + t = t + 1 by omega]
      rw [run_member_fact0 (w₀ :: ws') (b :: Q₀) _ _ (t + 1) u2 hu2]
      rw [show q - (((w₀ :: ws').length : ℕ) : ℚ) * (1 / 10)
            + ((t + 1 : ℕ) : ℚ) * (1 / 10)
          = q - (((w₀ :: ws').length : ℕ) : ℚ) * (1 / 10) + (t : ℚ) * (1 / 10)
            + 1 / 10 by push_cast; ring]
    by_cases hlast : t + 1 < ws'.length
    · obtain ⟨u3, hu3⟩ : ∃ w, (w₀ :: ws')[t + 2]? = some w :=
        ⟨_, List.getElem?_eq_getElem (by simp only [List.length_cons]; omega)⟩
      have hF3 : (assignedRun (w₀ :: ws')
          (q - (((w₀ :: ws').length : ℕ) : ℚ) * (1 / 10)) (1 / 10)
          ++ (b :: Q₀))[1 + t + 1]?
          = some (insOpT u3
              (q - (((w₀ :: ws').length : ℕ) : ℚ) * (1 / 10) + (t : ℚ) * (1 / 10)
                 + 1 / 10 + 1 / 10,
               q - (((w₀ :: ws').length : ℕ) : ℚ) * (1 / 10) + (t : ℚ) * (1 / 10)
                 + 1 / 10 + 1 / 10 + 1 / 10)) := by
        rw [show 1 + t + 1 = t + 2 by omega]
        rw [run_member_fact0 (w₀ :: ws') (b :: Q₀) _ _ (t + 2) u3 hu3]
        rw [show q - (((w₀ :: ws').length : ℕ) : ℚ) * (1 / 10)
              + ((t + 2 : ℕ) : ℚ) * (1 / 10)
            = q - (((w₀ :: ws').length : ℕ) : ℚ) * (1 / 10) + (t : ℚ) * (1 / 10)
              + 1 / 10 + 1 / 10 by push_cast; ring]
      exact adjustStep_fix_between _ (1 + t) _ _ u2 _ _ _ _
        (by omega) hF1 (insOpT_timing _ _) hF2 hF3 (insOpT_timing _ _) hd10
    · have hq : q = q - (((w₀ :: ws').length : ℕ) : ℚ) * (1 / 10) + (t : ℚ) * (1 / 10)
          + 1 / 10 + 1 / 10 := by
        rw [show (w₀ :: ws').length = t + 2 by simp only [List.length_cons]; omega]
        push_cast
        ring
      have hF3 : (assignedRun (w₀ :: ws')
          (q - (((w₀ :: ws').length : ℕ) : ℚ) * (1 / 10)) (1 / 10)
          ++ (b :: Q₀))[1 + t + 1]? = some b := by
        rw [show 1 + t + 1 = (w₀ :: ws').length by simp only [List.length_cons]; omega]
        rw [getElem?_after_run0]
        simp
      have hbt : b.adjusted_timing
          = some (q - (((w₀ :: ws').length : ℕ) : ℚ) * (1 / 10) + (t : ℚ) * (1 / 10)
              + 1 / 10 + 1 / 10, eb) := by
        rw [hb, ← hq]
      exact adjustStep_fix_between _ (1 + t) _ b u2 _ _ _ eb
        (by omega) hF1 (insOpT_timing _ _) hF2 hF3 hbt hd10
  rw [hfix]
  have hskip2 : adjustGo
      (assignedRun (w₀ :: ws') (q - (((w₀ :: ws').length : ℕ) : ℚ) * (1 / 10)) (1 / 10)
        ++ (b :: Q₀)) (1 + ws'.length) (Q₀.length + 1)
      = assignedRun (w₀ :: ws') (q - (((w₀ :: ws').length : ℕ) : ℚ) * (1 / 10)) (1 / 10)
          ++ (b :: Q₀) := by
    refine adjustGo_skip _ _ _ (fun t ht => ?_)
    rw [show 1 + ws'.length + t
        = (assignedRun (w₀ :: ws')
            (q - (((w₀ :: ws').length : ℕ) : ℚ) * (1 / 10)) (1 / 10)).length + t by
      rw [assignedRun_length]
      simp only [List.length_cons]
      omega]
    exact getD_op_ne_insert_right _ _ t hQ (by simp only [List.length_cons]; omega)
  rw [hskip2]

/-- Full characterization of `adjust_timing_for_insertions` when the
insertion run closes the segment: the run is placed immediately after the
last resolved operation, 0.1 per word. -/
theorem adjust_family_end (P₀ : List AOp) (a : AOp) (w₀ : String) (ws' : List String)
    (sa p : ℚ)
    (hP : ∀ o ∈ P₀ ++ [a], o.op ≠ EditOp.INSERT)
    (ha : a.adjusted_timing = some (sa, p)) :
    adjust_timing_for_insertions ((P₀ ++ [a]) ++ ((w₀ :: ws').map mkIns))
      = (P₀ ++ [a]) ++ assignedRun (w₀ :: ws') p (1 / 10) := by
  have hPlen : (P₀ ++ [a]).length = P₀.length + 1 := by simp
  have hN : ((P₀ ++ [a]) ++ ((w₀ :: ws').map mkIns)).length
      = (P₀.length + 1) + (ws'.length + 1) := by
    simp only [List.length_append, List.length_cons, List.length_map, List.length_nil]
  have hd10 : (0 : ℚ) < 1 / 10 := by norm_num
  unfold adjust_timing_for_insertions
  rw [hN, adjustGo_add]
  have hskip1 : adjustGo ((P₀ ++ [a]) ++ ((w₀ :: ws').map mkIns)) 0 (P₀.length + 1)
      = (P₀ ++ [a]) ++ ((w₀ :: ws').map mkIns) := by
    refine adjustGo_skip _ 0 _ (fun t ht => ?_)
    rw [Nat.zero_add]
    exact getD_op_ne_insert (P₀ ++ [a]) _ t (by omega) hP
  rw [hskip1, show 0 + (P₀.length + 1) = P₀.length + 1 by omega, adjustGo_succ,
    adjustStep_bigbang_end P₀ a w₀ ws' sa p ha]
  have hfix : adjustGo ((P₀ ++ [a]) ++ assignedRun (w₀ :: ws') p (1 / 10))
      (P₀.length + 1 + 1) ws'.length
      = (P₀ ++ [a]) ++ assignedRun (w₀ :: ws') p (1 / 10) := by
    refine adjustGo_fix _ _ _ (fun t ht => ?_)
    obtain ⟨u1, hu1⟩ : ∃ w, (w₀ :: ws')[t]? = some w :=
      ⟨_, List.getElem?_eq_getElem (by simp only [List.length_cons]; omega)⟩
    obtain ⟨u2, hu2⟩ : ∃ w, (w₀ :: ws')[t + 1]? = some w :=
      ⟨_, List.getElem?_eq_getElem (by simp only [List.length_cons]; omega)⟩
    have hF1 : ((P₀ ++ [a]) ++ assignedRun (w₀ :: ws') p (1 / 10))[P₀.length + 1 + 1 + t - 1]?
        = some (insOpT u1
            (p + (t : ℚ) * (1 / 10), p + (t : ℚ) * (1 / 10) + 1 / 10)) := by
      rw [show P₀.length + 1 + 1 + t - 1 = (P₀ ++ [a]).length + t by
        simp only [List.length_append, List.length_cons, List.length_nil]; omega]
      exact run_member_factP (P₀ ++ [a]) (w₀ :: ws') p (1 / 10) t u1 hu1
    have hF2 : ((P₀ ++ [a]) ++ assignedRun (w₀ :: ws') p (1 / 10))[P₀.length + 1 + 1 + t]?
        = some (insOpT u2
            (p + (t : ℚ) * (1 / 10) + 1 / 10,
             p + (t : ℚ) * (1 / 10) + 1 / 10 + 1 / 10)) := by
      rw [show P₀.length + 1 + 1 + t = (P₀ ++ [a]).length + (t + 1) by
        simp only [List.length_append, List.length_cons, List.length_nil]; omega]
      rw [run_member_factP (P₀ ++ [a]) (w₀ :: ws') p (1 / 10) (t + 1) u2 hu2]
      rw [show p + ((t + 1 : ℕ) : ℚ) * (1 / 10)
          = p + (t : ℚ) * (1 / 10) + 1 / 10 by push_cast; ring]
    by_cases hlast : t + 1 < ws'.length
    · obtain ⟨u3, hu3⟩ : ∃ w, (w₀ :: ws')[t + 2]? = some w :=
        ⟨_, List.getElem?_eq_getElem (by simp only [List.length_cons]; omega)⟩
      have hF3 : ((P₀ ++ [a]) ++
          assignedRun (w₀ :: ws') p (1 / 10))[P₀.length + 1 + 1 + t + 1]?
          = some (insOpT u3
              (p + (t : ℚ) * (1 / 10) + 1 / 10 + 1 / 10,
               p + (t : ℚ) * (1 / 10) + 1 / 10 + 1 / 10 + 1 / 10)) := by
        rw [show P₀.length + 1 + 1 + t + 1 = (P₀ ++ [a]).length + (t + 2) by
          simp only [List.length_append, List.length_cons, List.length_nil]; omega]
        rw [run_member_factP (P₀ ++ [a]) (w₀ :: ws') p (1 / 10) (t + 2) u3 hu3]
        rw [show p + ((t + 2 : ℕ) : ℚ) * (1 / 10)
            = p + (t : ℚ) * (1 / 10) + 1 / 10 + 1 / 10 by push_cast; ring]
      exact adjustStep_fix_between _ (P₀.length + 1 + 1 + t) _ _ u2 _ _ _ _
        (by omega) hF1 (insOpT_timing _ _) hF2 hF3 (insOpT_timing _ _) hd10
    · refine adjustStep_fix_last _ (P₀.length + 1 + 1 + t) _ u2 _ _
        (by omega) hF1 (insOpT_timing _ _) hF2 ?_
      simp only [List.length_append, List.length_cons, List.length_nil, assignedRun_length]
      omega
  rw [hfix]

/-- Full characterization of `adjust_timing_for_insertions` on a segment
whose operation sequence is entirely insertions: the run is anchored at
time zero with 0.1 per word. -/
theorem adjust_family_all (w₀ : String) (ws' : List String) :
    adjust_timing_for_insertions ((w₀ :: ws').map mkIns)
      = assignedRun (w₀ :: ws') 0 (1 / 10) := by
  have hN : ((w₀ :: ws').map mkIns).length = ws'.length + 1 := by
    simp only [List.length_cons, List.length_map]
  have hd10 : (0 : ℚ) < 1 / 10 := by norm_num
  unfold adjust_timing_for_insertions
  rw [hN, adjustGo_succ, adjustStep_bigbang_all w₀ ws', Nat.zero_add]
  have hfix : adjustGo (assignedRun (w₀ :: ws') 0 (1 / 10)) 1 ws'.length
      = assignedRun (w₀ :: ws') 0 (1 / 10) := by
    refine adjustGo_fix _ _ _ (fun t ht => ?_)
    obtain ⟨u1, hu1⟩ : ∃ w, (w₀ :: ws')[t]? = some w :=
      ⟨_, List.getElem?_eq_getElem (by simp only [List.length_cons]; omega)⟩
    obtain ⟨u2, hu2⟩ : ∃ w, (w₀ :: ws')[t + 1]? = some w :=
      ⟨_, List.getElem?_eq_getElem (by simp only [List.length_cons]; omega)⟩
    have hF1 : (assignedRun (w₀ :: ws') 0 (1 / 10))[1 + t - 1]?
        = some (insOpT u1
            ((0 : ℚ) + (t : ℚ) * (1 / 10), (0 : ℚ) + (t : ℚ) * (1 / 10) + 1 / 10)) := by
      rw [show 1 + t - 1 = t by omega]
      exact assignedRun_member (w₀ :: ws') 0 (1 / 10) t u1 hu1
    have hF2 : (assignedRun (w₀ :: ws') 0 (1 / 10))[1 + t]?
        = some (insOpT u2
            ((0 : ℚ) + (t : ℚ) * (1 / 10) + 1 / 10,
             (0 : ℚ) + (t : ℚ) * (1 / 10) + 1 / 10 + 1 / 10)) := by
      rw [show 1 + t = t + 1 by omega]
      rw [assignedRun_member (w₀ :: ws') 0 (1 / 10) (t + 1) u2 hu2]
      rw [show (0 : ℚ) + ((t + 1 : ℕ) : ℚ) * (1 / 10)
          = (0 : ℚ) + (t : ℚ) * (1 / 10) + 1 / 10 by push_cast; ring]
    by_cases hlast : t + 1 < ws'.length
    · obtain ⟨u3, hu3⟩ : ∃ w, (w₀ :: ws')[t + 2]? = some w :=
        ⟨_, List.getElem?_eq_getElem (by simp only [List.length_cons]; omega)⟩
      have hF3 : (assignedRun (w₀ :: ws') 0 (1 / 10))[1 + t + 1]?
          = some (insOpT u3
              ((0 : ℚ) + (t : ℚ) * (1 / 10) + 1 / 10 + 1 / 10,
               (0 : ℚ) + (t : ℚ) * (1 / 10) + 1 / 10 + 1 / 10 + 1 / 10)) := by
        rw [show 1 + t + 1 = t + 2 by omega]
        rw [assignedRun_member (w₀ :: ws') 0 (1 / 10) (t + 2) u3 hu3]
        rw [show (0 : ℚ) + ((t + 2 : ℕ) : ℚ) * (1 / 10)
            = (0 : ℚ) + (t : ℚ) * (1 / 10) + 1 / 10 + 1 / 10 by push_cast; ring]
      exact adjustStep_fix_between _ (1 + t) _ _ u2 _ _ _ _
        (by omega) hF1 (insOpT_timing _ _) hF2 hF3 (insOpT_timing _ _) hd10
    · refine adjustStep_fix_last _ (1 + t) _ u2 _ _
        (by omega) hF1 (insOpT_timing _ _) hF2 ?_
      rw [assignedRun_length]
      simp only [List.length_cons]
      omega
  rw [hfix]

theorem prevTimedIdx_here (S : List AOp) (i : ℕ) (o₁ : AOp)
    (h1 : S[i - 1]? = some o₁) (hi : 1 ≤ i) (ht : isTimed o₁ = true) :
    prevTimedIdx S i = some (i - 1) := by
  obtain ⟨i', rfl⟩ : ∃ i', i = i' + 1 := ⟨i - 1, by omega⟩
  simp only [Nat.add_sub_cancel] at h1
  unfold prevTimedIdx
  rw [List.take_succ, h1]
  simp [List.findIdx?_cons, ht]

theorem nextTimedIdx_here (S : List AOp) (i : ℕ) (o₂ : AOp)
    (h2 : S[i + 1]? = some o₂) (ht : isTimed o₂ = true) :
    nextTimedIdx S i = some (i + 1) := by
  obtain ⟨hlt, hEq⟩ := List.getElem?_eq_some.mp h2
  unfold nextTimedIdx
  rw [List.drop_eq_getElem_cons hlt, hEq]
  simp [List.findIdx?_cons, ht]

theorem setTimingAt_getElem?_eq (S : List AOp) (j : ℕ) (t : ℚ × ℚ) (y : AOp)
    (hy : S[j]? = some y) :
    (setTimingAt S j t)[j]? = some { y with adjusted_timing := some t } := by
  obtain ⟨hlt, hEq⟩ := List.getElem?_eq_some.mp hy
  unfold setTimingAt
  rw [List.getElem?_set_self (by simpa using hlt)]
  have : S.getD j default = y := by simp [List.getD_eq_getElem?_getD, hy]
  rw [this]

theorem setTimingAt_getElem?_ne (S : List AOp) (j m : ℕ) (t : ℚ × ℚ) (h : j ≠ m) :
    (setTimingAt S j t)[m]? = S[m]? := by
  unfold setTimingAt
  exact List.getElem?_set_ne h

theorem setTimingAt_getD (S : List AOp) (j : ℕ) (t : ℚ × ℚ) (y : AOp)
    (hy : S[j]? = some y) :
    (setTimingAt S j t).getD j default = { y with adjusted_timing := some t } := by
  simp [List.getD_eq_getElem?_getD, setTimingAt_getElem?_eq S j t y hy]

theorem assignGroup_getElem? (S : List AOp) (lo hi : ℕ) (base tp : ℚ) (m : ℕ) :
    (assignGroup S lo hi base tp)[m]? = (S[m]?).map (assignSlot lo hi base tp m) := by
  unfold assignGroup
  rw [mapIdxFrom_getElem?, Nat.zero_add]

/-- Characterization of `reduce_adjacent_words_timing` when resolved
operations exist on both sides of the insertion group: the preceding
resolved interval's end moves earlier by 33% of its duration, the
following resolved interval's start moves later by 33% of its duration,
and the reclaimed time is divided equally among the group, placed
contiguously from the new end of the preceding interval. -/
theorem reduce_characterization (S : List AOp) (lo hi i : ℕ) (oa ob : AOp)
    (s1 e1 s2 e2 : ℚ)
    (hi1 : 1 ≤ i)
    (hpa : S[i - 1]? = some oa) (hta : oa.adjusted_timing = some (s1, e1))
    (hpb : S[i + 1]? = some ob) (htb : ob.adjusted_timing = some (s2, e2))
    (havail : 0 < (e1 - s1) * (33 / 100) + (e2 - s2) * (33 / 100)) :
    reduce_adjacent_words_timing S lo hi i
      = assignGroup
          (setTimingAt (setTimingAt S (i - 1) (s1, e1 - (e1 - s1) * (33 / 100)))
            (i + 1) (s2 + (e2 - s2) * (33 / 100), e2))
          lo hi (e1 - (e1 - s1) * (33 / 100))
          (((e1 - s1) * (33 / 100) + (e2 - s2) * (33 / 100)) / ((hi + 1 - lo : ℕ) : ℚ)) := by
  have hpidx := prevTimedIdx_here S i oa hpa hi1 (isTimed_of_timing oa (s1, e1) hta)
  have hnidx := nextTimedIdx_here S i ob hpb (isTimed_of_timing ob (s2, e2) htb)
  have hgda : S.getD (i - 1) default = oa := by
    simp [List.getD_eq_getElem?_getD, hpa]
  have hne : (i - 1) ≠ (i + 1) := by omega
  have hgdb : (setTimingAt S (i - 1) (s1, e1 - (e1 - s1) * (33 / 100))).getD (i + 1) default
      = ob := by
    simp [List.getD_eq_getElem?_getD, setTimingAt_getElem?_ne S (i - 1) (i + 1) _ hne, hpb]
  have hgda2 : (setTimingAt (setTimingAt S (i - 1) (s1, e1 - (e1 - s1) * (33 / 100)))
      (i + 1) (s2 + (e2 - s2) * (33 / 100), e2)).getD (i - 1) default
      = { oa with adjusted_timing := some (s1, e1 - (e1 - s1) * (33 / 100)) } := by
    have h1 : (setTimingAt (setTimingAt S (i - 1) (s1, e1 - (e1 - s1) * (33 / 100)))
        (i + 1) (s2 + (e2 - s2) * (33 / 100), e2))[i - 1]?
        = (setTimingAt S (i - 1) (s1, e1 - (e1 - s1) * (33 / 100)))[i - 1]? :=
      setTimingAt_getElem?_ne _ (i + 1) (i - 1) _ (by omega)
    simp [List.getD_eq_getElem?_getD, h1, setTimingAt_getElem?_eq S (i - 1) _ oa hpa]
  unfold reduce_adjacent_words_timing
  rw [hpidx, hnidx]
  simp only [hgda, hta, hgdb, htb, hgda2]
  rw [if_pos havail]

theorem btPath_shape_aux (a b : List String) :
    ∀ n i j, i + j ≤ n → ∀ e ∈ btPath a b i j,
      (e.1 = EditOp.INSERT → e.2.1 = -1) ∧ (e.1 = EditOp.DELETE → e.2.2 = -1) := by
  intro n
  induction n with
  | zero =>
    intro i j h e he
    obtain ⟨rfl, rfl⟩ : i = 0 ∧ j = 0 := by omega
    simp [btPath_zero_zero] at he
  | succ n ih =>
    intro i j h e he
    match i, j with
    | 0, 0 => simp [btPath_zero_zero] at he
    | i + 1, 0 =>
      rw [btPath_succ_zero] at he
      rcases List.mem_append.mp he with h1 | h1
      · exact ih i 0 (by omega) e h1
      · rw [List.mem_singleton.mp h1]
        exact ⟨fun hc => EditOp.noConfusion hc, fun _ => rfl⟩
    | 0, j + 1 =>
      rw [btPath_zero_succ] at he
      rcases List.mem_append.mp he with h1 | h1
      · exact ih 0 j (by omega) e h1
      · rw [List.mem_singleton.mp h1]
        exact ⟨fun _ => rfl, fun hc => EditOp.noConfusion hc⟩
    | i + 1, j + 1 =>
      rw [btPath_succ_succ] at he
      rcases hD : btDecision a b i j with _ | _ | _ | _ <;> rw [hD] at he
      · rcases List.mem_append.mp he with h1 | h1
        · exact ih i j (by omega) e h1
        · rw [List.mem_singleton.mp h1]
          exact ⟨fun hc => EditOp.noConfusion hc, fun hc => EditOp.noConfusion hc⟩
      · rcases List.mem_append.mp he with h1 | h1
        · exact ih i j (by omega) e h1
        · rw [List.mem_singleton.mp h1]
          exact ⟨fun hc => EditOp.noConfusion hc, fun hc => EditOp.noConfusion hc⟩
      · rcases List.mem_append.mp he with h1 | h1
        · exact ih (i + 1) j (by omega) e h1
        · rw [List.mem_singleton.mp h1]
          exact ⟨fun _ => rfl, fun hc => EditOp.noConfusion hc⟩
      · rcases List.mem_append.mp he with h1 | h1
        · exact ih i (j + 1) (by omega) e h1
        · rw [List.mem_singleton.mp h1]
          exact ⟨fun hc => EditOp.noConfusion hc, fun _ => rfl⟩

theorem btPath_shape (a b : List String) (e : EditOp × Int × Int)
    (he : e ∈ btPath a b a.length b.length) :
    (e.1 = EditOp.INSERT → e.2.1 = -1) ∧ (e.1 = EditOp.DELETE → e.2.2 = -1) :=
  btPath_shape_aux a b (a.length + b.length) a.length b.length le_rfl e he

theorem path_hypIdx_bound (a b : List String) (e : EditOp × Int × Int)
    (he : e ∈ btPath a b a.length b.length) (hne : e.1 ≠ EditOp.INSERT) :
    ∃ n : ℕ, n < a.length ∧ e.2.1 = (n : Int) := by
  have hv : hypIdx e = some e.2.1 := by
    rcases h1 : e.1 with _ | _ | _ | _ <;> simp [hypIdx, h1]
    exact hne h1
  have hm : e.2.1 ∈ (btPath a b a.length b.length).filterMap hypIdx :=
    List.mem_filterMap.mpr ⟨e, he, hv⟩
  rw [(btPath_cover a b a.length b.length).1] at hm
  obtain ⟨n, hn, hv'⟩ := List.mem_map.mp hm
  exact ⟨n, List.mem_range.mp hn, hv'.symm⟩

theorem mkOperation_asr_word (aw : List WordTiming) (rws : List String)
    (e : EditOp × Int × Int) :
    (mkOperation aw rws e).asr_word
      = (if 0 ≤ e.2.1 then aw.get? e.2.1.toNat else none) := rfl

theorem mkOperation_ref_word (aw : List WordTiming) (rws : List String)
    (e : EditOp × Int × Int) :
    (mkOperation aw rws e).ref_word
      = (if 0 ≤ e.2.2 then rws.get? e.2.2.toNat else none) := rfl

theorem mkOperation_timing (aw : List WordTiming) (rws : List String)
    (e : EditOp × Int × Int) :
    (mkOperation aw rws e).adjusted_timing
      = (mkOperation aw rws e).asr_word.map (fun w => (w.start, w.stop)) := rfl

theorem mkOperation_op (aw : List WordTiming) (rws : List String)
    (e : EditOp × Int × Int) : (mkOperation aw rws e).op = e.1 := rfl

/-- Every non-insert operation built by `align_segment` carries its
hypothesis word and starts out timed with that word's own interval. -/
theorem mkOperations_nonInsert_timing (aw : List WordTiming) (rws : List String) :
    ∀ o ∈ mkOperations aw rws, o.op ≠ EditOp.INSERT →
      ∃ w, o.asr_word = some w ∧ o.adjusted_timing = some (w.start, w.stop) := by
  intro o ho hop
  obtain ⟨e, he, rfl⟩ := List.mem_map.mp ho
  have he' : e ∈ btPath (aw.map (fun w => w.word)) rws
      (aw.map (fun w => w.word)).length rws.length := he
  have hop' : e.1 ≠ EditOp.INSERT := by
    rw [mkOperation_op] at hop
    exact hop
  obtain ⟨n, hn, h21⟩ := path_hypIdx_bound (aw.map (fun w => w.word)) rws e he' hop'
  rw [List.length_map] at hn
  obtain ⟨w, hw⟩ : ∃ w, aw[n]? = some w := ⟨_, List.getElem?_eq_getElem hn⟩
  have hasr : (mkOperation aw rws e).asr_word = some w := by
    rw [mkOperation_asr_word, h21, if_pos (by exact_mod_cast Int.ofNat_nonneg n),
      Int.toNat_natCast, List.get?_eq_getElem?]
    exact hw
  refine ⟨w, hasr, ?_⟩
  rw [mkOperation_timing, hasr]
  rfl

/-- Every insert operation built by `align_segment` has no hypothesis word
and no timing. -/
theorem mkOperations_insert_untimed (aw : List WordTiming) (rws : List String) :
    ∀ o ∈ mkOperations aw rws, o.op = EditOp.INSERT →
      o.asr_word = none ∧ o.adjusted_timing = none := by
  intro o ho hop
  obtain ⟨e, he, rfl⟩ := List.mem_map.mp ho
  rw [mkOperation_op] at hop
  have he' : e ∈ btPath (aw.map (fun w => w.word)) rws
      (aw.map (fun w => w.word)).length rws.length := he
  have h21 : e.2.1 = -1 :=
    (btPath_shape (aw.map (fun w => w.word)) rws e he').1 hop
  have hasr : (mkOperation aw rws e).asr_word = none := by
    rw [mkOperation_asr_word, h21, if_neg (by decide)]
  refine ⟨hasr, ?_⟩
  rw [mkOperation_timing, hasr]
  rfl

/-- Every delete operation built by `align_segment` has no reference word
(and is therefore dropped by the output serialization, whose filter keeps
only truthy `ref_word`s). -/
theorem mkOperations_delete_noref (aw : List WordTiming) (rws : List String) :
    ∀ o ∈ mkOperations aw rws, o.op = EditOp.DELETE → o.ref_word = none := by
  intro o ho hop
  obtain ⟨e, he, rfl⟩ := List.mem_map.mp ho
  rw [mkOperation_op] at hop
  have he' : e ∈ btPath (aw.map (fun w => w.word)) rws
      (aw.map (fun w => w.word)).length rws.length := he
  have h22 : e.2.2 = -1 :=
    (btPath_shape (aw.map (fun w => w.word)) rws e he').2 hop
  rw [mkOperation_ref_word, h22, if_neg (by decide)]

theorem runAlignments_cons (p : AsrTurn × RefSeg) (ps : List (AsrTurn × RefSeg)) :
    runAlignments (p :: ps)
      = (processPair p).bind
          (fun al => (runAlignments ps).bind (fun rest => Except.ok (al :: rest))) := rfl

theorem overlapLen_nonneg (r : TimeSeg) (ar : ℚ × ℚ) : 0 ≤ overlapLen r ar :=
  le_max_left 0 _

theorem bestFor_append (asr : List AsrSeg) (x : AsrSeg) (r : TimeSeg) :
    bestFor (asr ++ [x]) r =
      if (bestFor asr r).1 < overlapLen r (asrRange x)
      then (overlapLen r (asrRange x), some x) else bestFor asr r := by
  unfold bestFor
  rw [List.foldl_append]
  rfl

/-- First-argmax characterization of the inner fold of
`find_overlapping_segments`: either every overlap is zero and the fold
returns its initial state, or it returns the first ASR segment attaining
the maximal (strictly positive) overlap. -/
theorem bestFor_spec (r : TimeSeg) (asr : List AsrSeg) :
    (bestFor asr r = (0, none) ∧ ∀ a ∈ asr, overlapLen r (asrRange a) = 0) ∨
    (∃ (k : ℕ) (a : AsrSeg), asr[k]? = some a ∧
      bestFor asr r = (overlapLen r (asrRange a), some a) ∧
      0 < overlapLen r (asrRange a) ∧
      (∀ a' ∈ asr, overlapLen r (asrRange a') ≤ overlapLen r (asrRange a)) ∧
      (∀ (k' : ℕ) (a' : AsrSeg), k' < k → asr[k']? = some a' →
        overlapLen r (asrRange a') < overlapLen r (asrRange a))) := by
  induction asr using List.reverseRecOn with
  | nil => exact Or.inl ⟨rfl, by simp⟩
  | append_singleton l x ih =>
    rcases ih with ⟨hb, hall⟩ | ⟨k, a, hka, hbf, hpos, hmax, hstrict⟩
    · by_cases hx : 0 < overlapLen r (asrRange x)
      · refine Or.inr ⟨l.length, x, ?_, ?_, hx, ?_, ?_⟩
        · rw [List.getElem?_append_right le_rfl]
          simp
        · rw [bestFor_append, hb, if_pos hx]
        · intro a' ha'
          rcases List.mem_append.mp ha' with h | h
          · rw [hall a' h]
            exact le_of_lt hx
          · rw [List.mem_singleton.mp h]
        · intro k' a' hk' hka'
          rw [List.getElem?_append_left hk'] at hka'
          rw [hall a' (List.getElem?_mem hka')]
          exact hx
      · have hx0 : overlapLen r (asrRange x) = 0 :=
          le_antisymm (not_lt.mp hx) (overlapLen_nonneg r _)
        refine Or.inl ⟨?_, ?_⟩
        · rw [bestFor_append, hb, if_neg hx]
        · intro a' ha'
          rcases List.mem_append.mp ha' with h | h
          · exact hall a' h
          · rw [List.mem_singleton.mp h]
            exact hx0
    · have hk_lt : k < l.length := (List.getElem?_eq_some.mp hka).1
      by_cases hx : overlapLen r (asrRange a) < overlapLen r (asrRange x)
      · refine Or.inr ⟨l.length, x, ?_, ?_, lt_trans hpos hx, ?_, ?_⟩
        · rw [List.getElem?_append_right le_rfl]
          simp
        · rw [bestFor_append, hbf, if_pos hx]
        · intro a' ha'
          rcases List.mem_append.mp ha' with h | h
          · exact le_trans (hmax a' h) (le_of_lt hx)
          · rw [List.mem_singleton.mp h]
        · intro k' a' hk' hka'
          rw [List.getElem?_append_left hk'] at hka'
          exact lt_of_le_of_lt (hmax a' (List.getElem?_mem hka')) hx
      · refine Or.inr ⟨k, a, ?_, ?_, hpos, ?_, ?_⟩
        · rw [List.getElem?_append_left hk_lt]
          exact hka
        · rw [bestFor_append, hbf, if_neg hx]
        · intro a' ha'
          rcases List.mem_append.mp ha' with h | h
          · exact hmax a' h
          · rw [List.mem_singleton.mp h]
            exact not_lt.mp hx
        · intro k' a' hk' hka'
          rw [List.getElem?_append_left (by omega)] at hka'
          exact hstrict k' a' hk' hka'

theorem find_overlapping_step (asr : List AsrSeg) (r : TimeSeg)
    (acc : List (AsrSeg × TimeSeg)) :
    (let br := bestFor asr r
     if 0 < br.1 then
       match br.2 with
       | some a => acc ++ [(a, r)]
       | none => acc
     else acc)
      = acc ++ (match pairFor asr r with | some pr => [pr] | none => []) := by
  unfold pairFor
  by_cases h0 : 0 < (bestFor asr r).1
  · rcases hm : (bestFor asr r).2 with _ | a <;> simp [h0, hm]
  · simp [h0]

theorem find_overlapping_foldl (asr : List AsrSeg) (refs : List TimeSeg) :
    ∀ acc : List (AsrSeg × TimeSeg),
      refs.foldl
        (fun pairs r =>
          let br := bestFor asr r
          if 0 < br.1 then
            match br.2 with
            | some a => pairs ++ [(a, r)]
            | none => pairs
          else pairs) acc
      = acc ++ refs.filterMap (pairFor asr) := by
  induction refs with
  | nil =>
    intro acc
    simp
  | cons r rs ih =>
    intro acc
    rw [List.foldl_cons, find_overlapping_step asr r acc, ih]
    rcases hpf : pairFor asr r with _ | pr <;>
      simp [List.filterMap_cons, hpf, List.append_assoc]

theorem runAlignments_ok_prefix_error (qs : List (AsrTurn × RefSeg)) (p : AsrTurn × RefSeg)
    (e : String) (hbad : processPair p = Except.error e) :
    ∀ ps : List (AsrTurn × RefSeg), (∀ q ∈ ps, (processPair q).isOk = true) →
      runAlignments (ps ++ p :: qs) = Except.error e := by
  intro ps
  induction ps with
  | nil =>
    intro _
    rw [List.nil_append, runAlignments_cons, hbad]
    rfl
  | cons q ps ih =>
    intro hok
    have hq := hok q (List.mem_cons_self q ps)
    obtain ⟨al, hal⟩ : ∃ al, processPair q = Except.ok al := by
      rcases hpq : processPair q with e' | al
      · rw [hpq] at hq
        exact Bool.noConfusion hq
      · exact ⟨al, rfl⟩
    rw [List.cons_append, runAlignments_cons, hal]
    show (runAlignments (ps ++ p :: qs)).bind (fun rest => Except.ok (al :: rest))
        = Except.error e
    rw [ih (fun q' hq' => hok q' (List.mem_cons_of_mem q hq'))]
    rfl

section
attribute [local semireducible] Rat.add Rat.sub Rat.mul Rat.inv

/-- C4: for an insertion run between a resolved operation ending at `p` and
a resolved operation starting at `q` with `0 < q - p`, the timing
reconstructor gives the `t`-th inserted word (0-based) the interval
`[p + t*(q-p)/k, p + (t+1)*(q-p)/k]` where `k` is the run length; in
particular a single word inserted between hypothesis words timed
`[0, 1]` and `[3, 4]` receives `[1, 3]`. -/
theorem C4_gap_division (P₀ : List AOp) (a : AOp) (w₀ : String) (ws' : List String)
    (b : AOp) (Q₀ : List AOp) (sa p q eb : ℚ)
    (hP : ∀ o ∈ P₀ ++ [a], o.op ≠ EditOp.INSERT)
    (hQ : ∀ o ∈ b :: Q₀, o.op ≠ EditOp.INSERT)
    (ha : a.adjusted_timing = some (sa, p)) (hb : b.adjusted_timing = some (q, eb))
    (hgap : 0 < q - p) :
    (∀ (t : ℕ) (w : String), (w₀ :: ws')[t]? = some w →
      (adjust_timing_for_insertions
          ((P₀ ++ [a]) ++ (((w₀ :: ws').map mkIns) ++ (b :: Q₀))))[P₀.length + 1 + t]?
        = some (insOpT w
            (p + (t : ℚ) * ((q - p) / (((w₀ :: ws').length : ℕ) : ℚ)),
             p + ((t : ℚ) + 1) * ((q - p) / (((w₀ :: ws').length : ℕ) : ℚ))))) ∧
    adjust_timing_for_insertions [mOp "u" 0 1, mkIns "x", mOp "v" 3 4]
      = [mOp "u" 0 1, insOpT "x" (1, 3), mOp "v" 3 4] := by
  constructor
  · intro t w hw
    rw [adjust_family_mid P₀ a w₀ ws' b Q₀ sa p q eb hP hQ ha hb hgap,
      show P₀.length + 1 + t = (P₀ ++ [a]).length + t by simp,
      run_member_fact (P₀ ++ [a]) (w₀ :: ws') (b :: Q₀) p
        ((q - p) / (((w₀ :: ws').length : ℕ) : ℚ)) t w hw,
      show p + (t : ℚ) * ((q - p) / (((w₀ :: ws').length : ℕ) : ℚ))
            + (q - p) / (((w₀ :: ws').length : ℕ) : ℚ)
          = p + ((t : ℚ) + 1) * ((q - p) / (((w₀ :: ws').length : ℕ) : ℚ)) by ring]
  · decide

/-- C4 witness: all hypotheses hold at a concrete three-operation segment
and the theorem yields the claim's own numeric example. -/
theorem C4_gap_division_witness :
    (∀ o ∈ ([] : List AOp) ++ [mOp "u" 0 1], o.op ≠ EditOp.INSERT) ∧
    (∀ o ∈ mOp "v" 3 4 :: ([] : List AOp), o.op ≠ EditOp.INSERT) ∧
    (mOp "u" 0 1).adjusted_timing = some (0, 1) ∧
    (mOp "v" 3 4).adjusted_timing = some (3, 4) ∧
    (0 : ℚ) < 3 - 1 ∧
    adjust_timing_for_insertions [mOp "u" 0 1, mkIns "x", mOp "v" 3 4]
      = [mOp "u" 0 1, insOpT "x" (1, 3), mOp "v" 3 4] :=
  ⟨by decide, by decide, by decide, by decide, by decide,
   (C4_gap_division [] (mOp "u" 0 1) "x" [] (mOp "v" 3 4) [] 0 1 3 4
     (by decide) (by decide) (by decide) (by decide) (by decide)).2⟩

/-- C5 counterexample: on the claim's own example (hypothesis words
`[0, 1]` and `[1, 2]`, one insertion between), the code produces
`0.67`/`1.33` boundaries (its reduction factor is exactly `0.33`), not the
`0.6667`/`1.3333` boundaries the claim states. -/
theorem C5_counterexample :
    adjust_timing_for_insertions [mOp "u" 0 1, mkIns "x", mOp "v" 1 2]
      = [{ mOp "u" 0 1 with adjusted_timing := some (0, 67 / 100) },
         insOpT "x" (67 / 100, 133 / 100),
         { mOp "v" 1 2 with adjusted_timing := some (133 / 100, 2) }] ∧
    adjust_timing_for_insertions [mOp "u" 0 1, mkIns "x", mOp "v" 1 2]
      ≠ [{ mOp "u" 0 1 with adjusted_timing := some (0, 6667 / 10000) },
         insOpT "x" (6667 / 10000, 13333 / 10000),
         { mOp "v" 1 2 with adjusted_timing := some (13333 / 10000, 2) }] :=
  ⟨by decide, by decide⟩

/-- C5 (amended): with no slack, the preceding resolved interval's end
shrinks by exactly `0.33` of its duration and the following resolved
interval's start grows by exactly `0.33` of its duration, the reclaimed
total being divided equally over the run starting at the new preceding
end; on the claim's example the boundaries are therefore `0.67` and
`1.33`. -/
theorem C5_borrow (S : List AOp) (lo hi i : ℕ) (oa ob : AOp) (s1 e1 s2 e2 : ℚ)
    (hi1 : 1 ≤ i)
    (hpa : S[i - 1]? = some oa) (hta : oa.adjusted_timing = some (s1, e1))
    (hpb : S[i + 1]? = some ob) (htb : ob.adjusted_timing = some (s2, e2))
    (havail : 0 < (e1 - s1) * (33 / 100) + (e2 - s2) * (33 / 100)) :
    reduce_adjacent_words_timing S lo hi i
      = assignGroup
          (setTimingAt (setTimingAt S (i - 1) (s1, e1 - (e1 - s1) * (33 / 100)))
            (i + 1) (s2 + (e2 - s2) * (33 / 100), e2))
          lo hi (e1 - (e1 - s1) * (33 / 100))
          (((e1 - s1) * (33 / 100) + (e2 - s2) * (33 / 100)) / ((hi + 1 - lo : ℕ) : ℚ)) ∧
    adjust_timing_for_insertions [mOp "u" 0 1, mkIns "x", mOp "v" 1 2]
      = [{ mOp "u" 0 1 with adjusted_timing := some (0, 67 / 100) },
         insOpT "x" (67 / 100, 133 / 100),
         { mOp "v" 1 2 with adjusted_timing := some (133 / 100, 2) }] :=
  ⟨reduce_characterization S lo hi i oa ob s1 e1 s2 e2 hi1 hpa hta hpb htb havail,
   by decide⟩

/-- C5 witness: the borrow hypotheses hold at the claim's example segment
and the theorem yields the corrected concrete boundaries. -/
theorem C5_borrow_witness :
    1 ≤ 1 ∧
    [mOp "u" 0 1, mkIns "x", mOp "v" 1 2][(1 : ℕ) - 1]? = some (mOp "u" 0 1) ∧
    (mOp "u" 0 1).adjusted_timing = some (0, 1) ∧
    [mOp "u" 0 1, mkIns "x", mOp "v" 1 2][(1 : ℕ) + 1]? = some (mOp "v" 1 2) ∧
    (mOp "v" 1 2).adjusted_timing = some (1, 2) ∧
    (0 : ℚ) < (1 - 0) * (33 / 100) + (2 - 1) * (33 / 100) ∧
    adjust_timing_for_insertions [mOp "u" 0 1, mkIns "x", mOp "v" 1 2]
      = [{ mOp "u" 0 1 with adjusted_timing := some (0, 67 / 100) },
         insOpT "x" (67 / 100, 133 / 100),
         { mOp "v" 1 2 with adjusted_timing := some (133 / 100, 2) }] :=
  ⟨by decide, by decide, by decide, by decide, by decide, by decide,
   (C5_borrow [mOp "u" 0 1, mkIns "x", mOp "v" 1 2] 1 1 1 (mOp "u" 0 1) (mOp "v" 1 2)
     0 1 1 2 (by decide) (by decide) (by decide) (by decide) (by decide) (by decide)).2⟩

/-- C6 counterexample: in the final output of `align_segment` for
hypothesis words `a [0, 1]`, `b [1, 2]` against reference
`"a x b"`, the first operation is a MATCH over `a [0, 1]` whose final
timing is not `(0, 1)` — the borrow path shrank it — refuting that
Match/Substitute timings always equal the hypothesis interval verbatim
and are never changed by insertion processing. -/
theorem C6_counterexample :
    ((align_segment [⟨"a", 0, 1, none⟩, ⟨"b", 1, 2, none⟩]
        ["a", "x", "b"] "s" 0 2 0 2).operations.getD 0 default).op = EditOp.MATCH ∧
    ((align_segment [⟨"a", 0, 1, none⟩, ⟨"b", 1, 2, none⟩]
        ["a", "x", "b"] "s" 0 2 0 2).operations.getD 0 default).asr_word
      = some ⟨"a", 0, 1, none⟩ ∧
    ((align_segment [⟨"a", 0, 1, none⟩, ⟨"b", 1, 2, none⟩]
        ["a", "x", "b"] "s" 0 2 0 2).operations.getD 0 default).adjusted_timing
      ≠ some ((0 : ℚ), 1) :=
  ⟨by decide, by decide, by decide⟩

/-- C6 (amended): every Match/Substitute operation starts out with its
hypothesis word's `(start, stop)` verbatim; insertion processing leaves
the resolved neighbours unchanged whenever the run's gap is positive; but
on the zero-gap borrow path a MATCH timing does change (here to
`(0, 0.67)`). -/
theorem C6_match_sub_timing (aw : List WordTiming) (rws : List String)
    (P₀ : List AOp) (a : AOp) (w₀ : String) (ws' : List String)
    (b : AOp) (Q₀ : List AOp) (sa p q eb : ℚ)
    (hP : ∀ o ∈ P₀ ++ [a], o.op ≠ EditOp.INSERT)
    (hQ : ∀ o ∈ b :: Q₀, o.op ≠ EditOp.INSERT)
    (ha : a.adjusted_timing = some (sa, p)) (hb : b.adjusted_timing = some (q, eb))
    (hgap : 0 < q - p) :
    (∀ o ∈ mkOperations aw rws, o.op = EditOp.MATCH ∨ o.op = EditOp.SUBSTITUTE →
      ∃ w, o.asr_word = some w ∧ o.adjusted_timing = some (w.start, w.stop)) ∧
    adjust_timing_for_insertions ((P₀ ++ [a]) ++ (((w₀ :: ws').map mkIns) ++ (b :: Q₀)))
      = (P₀ ++ [a]) ++
          (assignedRun (w₀ :: ws') p ((q - p) / (((w₀ :: ws').length : ℕ) : ℚ))
            ++ (b :: Q₀)) ∧
    ((align_segment [⟨"a", 0, 1, none⟩, ⟨"b", 1, 2, none⟩]
        ["a", "x", "b"] "s" 0 2 0 2).operations.getD 0 default).adjusted_timing
      = some (0, 67 / 100) := by
  refine ⟨?_, adjust_family_mid P₀ a w₀ ws' b Q₀ sa p q eb hP hQ ha hb hgap, by decide⟩
  intro o ho hop
  refine mkOperations_nonInsert_timing aw rws o ho ?_
  rcases hop with h | h <;> rw [h] <;> decide

/-- C6 witness: the hypotheses hold at a concrete positive-gap segment and
the theorem yields the borrow-path exception value. -/
theorem C6_match_sub_timing_witness :
    (∀ o ∈ ([] : List AOp) ++ [mOp "u" 0 1], o.op ≠ EditOp.INSERT) ∧
    (∀ o ∈ mOp "v" 3 4 :: ([] : List AOp), o.op ≠ EditOp.INSERT) ∧
    (mOp "u" 0 1).adjusted_timing = some (0, 1) ∧
    (mOp "v" 3 4).adjusted_timing = some (3, 4) ∧
    (0 : ℚ) < 3 - 1 ∧
    ((align_segment [⟨"a", 0, 1, none⟩, ⟨"b", 1, 2, none⟩]
        ["a", "x", "b"] "s" 0 2 0 2).operations.getD 0 default).adjusted_timing
      = some (0, 67 / 100) :=
  ⟨by decide, by decide, by decide, by decide, by decide,
   (C6_match_sub_timing [] [] [] (mOp "u" 0 1) "x" [] (mOp "v" 3 4) [] 0 1 3 4
     (by decide) (by decide) (by decide) (by decide) (by decide)).2.2⟩

/-- C7: an insertion run at the start of the segment is placed immediately
before the first resolved operation, counting `0.1` per word backward from
its start; a run at the end is placed immediately after the last resolved
operation with `0.1` per word; an all-insertions segment is anchored at
time zero with `0.1` per word. -/
theorem C7_edge_insertions (P₀ : List AOp) (a : AOp) (w₀ : String) (ws' : List String)
    (b : AOp) (Q₀ : List AOp) (sa p q eb : ℚ)
    (hP : ∀ o ∈ P₀ ++ [a], o.op ≠ EditOp.INSERT)
    (hQ : ∀ o ∈ b :: Q₀, o.op ≠ EditOp.INSERT)
    (ha : a.adjusted_timing = some (sa, p)) (hb : b.adjusted_timing = some (q, eb)) :
    adjust_timing_for_insertions (((w₀ :: ws').map mkIns) ++ (b :: Q₀))
      = assignedRun (w₀ :: ws') (q - (((w₀ :: ws').length : ℕ) : ℚ) * (1 / 10)) (1 / 10)
          ++ (b :: Q₀) ∧
    adjust_timing_for_insertions ((P₀ ++ [a]) ++ ((w₀ :: ws').map mkIns))
      = (P₀ ++ [a]) ++ assignedRun (w₀ :: ws') p (1 / 10) ∧
    adjust_timing_for_insertions ((w₀ :: ws').map mkIns)
      = assignedRun (w₀ :: ws') 0 (1 / 10) :=
  ⟨adjust_family_start w₀ ws' b Q₀ q eb hQ hb,
   adjust_family_end P₀ a w₀ ws' sa p hP ha,
   adjust_family_all w₀ ws'⟩

/-- C7 witness: the hypotheses hold at concrete resolved neighbours, and
the theorem places a one-word run before `[3, 4]`, after `[0, 1]`, and at
zero for an all-insertions segment. -/
theorem C7_edge_insertions_witness :
    (∀ o ∈ ([] : List AOp) ++ [mOp "u" 0 1], o.op ≠ EditOp.INSERT) ∧
    (∀ o ∈ mOp "v" 3 4 :: ([] : List AOp), o.op ≠ EditOp.INSERT) ∧
    (mOp "u" 0 1).adjusted_timing = some (0, 1) ∧
    (mOp "v" 3 4).adjusted_timing = some (3, 4) ∧
    (adjust_timing_for_insertions ((["x"].map mkIns) ++ (mOp "v" 3 4 :: ([] : List AOp)))
      = assignedRun ["x"] (3 - ((["x"].length : ℕ) : ℚ) * (1 / 10)) (1 / 10)
          ++ (mOp "v" 3 4 :: ([] : List AOp)) ∧
    adjust_timing_for_insertions ((([] : List AOp) ++ [mOp "u" 0 1]) ++ (["x"].map mkIns))
      = (([] : List AOp) ++ [mOp "u" 0 1]) ++ assignedRun ["x"] 1 (1 / 10) ∧
    adjust_timing_for_insertions (["x"].map mkIns) = assignedRun ["x"] 0 (1 / 10)) :=
  ⟨by decide, by decide, by decide, by decide,
   C7_edge_insertions [] (mOp "u" 0 1) "x" [] (mOp "v" 3 4) [] 0 1 3 4
     (by decide) (by decide) (by decide) (by decide)⟩

/-- C8: the segment pairer emits, per reference segment, at most one pair —
the first ASR segment (in input order) of maximal strictly positive
overlap — and drops reference segments whose overlap with every ASR
segment is zero; for reference `[0, 10]` and ASR segments `[0, 4]` and
`[3, 12]` the pair chosen is `([3, 12], [0, 10])`. -/
theorem C8_segment_pairing (asr : List AsrSeg) (refs : List TimeSeg) :
    find_overlapping_segments asr refs = refs.filterMap (pairFor asr) ∧
    (∀ r : TimeSeg,
      (∃ (k : ℕ) (a : AsrSeg), asr[k]? = some a ∧ pairFor asr r = some (a, r) ∧
        0 < overlapLen r (asrRange a) ∧
        (∀ a' ∈ asr, overlapLen r (asrRange a') ≤ overlapLen r (asrRange a)) ∧
        (∀ (k' : ℕ) (a' : AsrSeg), k' < k → asr[k']? = some a' →
          overlapLen r (asrRange a') < overlapLen r (asrRange a))) ∨
      (pairFor asr r = none ∧ ∀ a ∈ asr, overlapLen r (asrRange a) = 0)) ∧
    find_overlapping_segments [⟨none, 0, 4⟩, ⟨none, 3, 12⟩] [⟨0, 10⟩]
      = [(⟨none, 3, 12⟩, ⟨0, 10⟩)] := by
  refine ⟨?_, ?_, by decide⟩
  · unfold find_overlapping_segments
    rw [find_overlapping_foldl asr refs []]
    exact List.nil_append _
  · intro r
    rcases bestFor_spec r asr with ⟨hb, hall⟩ | ⟨k, a, hka, hbf, hpos, hmax, hstrict⟩
    · right
      exact ⟨by simp [pairFor, hb], hall⟩
    · left
      exact ⟨k, a, hka, by simp [pairFor, hbf, hpos], hpos, hmax, hstrict⟩

/-- C9 counterexample: a batch holding one well-formed pair and one pair
whose word record lacks its `start` field does not complete with the good
pair's alignment — the whole run is the propagated `KeyError` — although
the well-formed pair alone processes fine. -/
theorem C9_counterexample :
    runAlignments [(goodTurn, refSegA), (badTurn, refSegA)]
      = Except.error "KeyError: start" ∧
    (runAlignments [(goodTurn, refSegA)]).isOk = true :=
  ⟨by decide, by decide⟩

/-- C9 (amended): `main` has no per-pair exception handling: as soon as one
segment pair raises (e.g. a word record missing `start`), the whole batch
run aborts with that error, no matter how many well-formed pairs precede
or follow it. -/
theorem C9_abort_on_bad_pair (ps qs : List (AsrTurn × RefSeg)) (p : AsrTurn × RefSeg)
    (e : String)
    (hok : ∀ q ∈ ps, (processPair q).isOk = true)
    (hbad : processPair p = Except.error e) :
    runAlignments (ps ++ p :: qs) = Except.error e :=
  runAlignments_ok_prefix_error qs p e hbad ps hok

/-- C9 witness: the hypotheses hold for a concrete good/bad pair of turns
and the theorem gives the aborted batch result. -/
theorem C9_abort_on_bad_pair_witness :
    (∀ q ∈ [(goodTurn, refSegA)], (processPair q).isOk = true) ∧
    processPair (badTurn, refSegA) = Except.error "KeyError: start" ∧
    runAlignments [(goodTurn, refSegA), (badTurn, refSegA)]
      = Except.error "KeyError: start" :=
  ⟨by decide, by decide,
   C9_abort_on_bad_pair [(goodTurn, refSegA)] [] (badTurn, refSegA) "KeyError: start"
     (by decide) (by decide)⟩

/-- C10: in the operation list built by `align_segment`, every Match,
Substitute and Delete operation is timed with its hypothesis word's
`(start, stop)` before insertion processing begins, and only Insert
operations are untimed (they carry no hypothesis word at all); a Delete
operation has no reference word, so it is dropped from the serialized
output, yet — being timed — it anchors an insertion run: the insert after
`DELETE d [0, 1]` receives `[1, 1.1]` while serialization keeps only the
insert. -/
theorem C10_delete_anchor (aw : List WordTiming) (rws : List String) :
    (∀ o ∈ mkOperations aw rws, o.op ≠ EditOp.INSERT →
      ∃ w, o.asr_word = some w ∧ o.adjusted_timing = some (w.start, w.stop)) ∧
    (∀ o ∈ mkOperations aw rws, o.op = EditOp.INSERT →
      o.asr_word = none ∧ o.adjusted_timing = none) ∧
    (∀ o ∈ mkOperations aw rws, o.op = EditOp.DELETE → o.ref_word = none) ∧
    prevTimedEnd [dOp "d" 0 1, mkIns "x"] 1 = some 1 ∧
    adjust_timing_for_insertions [dOp "d" 0 1, mkIns "x"]
      = [dOp "d" 0 1, insOpT "x" (1, 11 / 10)] ∧
    serializeWords [dOp "d" 0 1, insOpT "x" (1, 11 / 10)]
      = [{ word := "x", operation := "I", timing := some (1, 11 / 10),
           asr_word := none, confidence := none }] :=
  ⟨mkOperations_nonInsert_timing aw rws, mkOperations_insert_untimed aw rws,
   mkOperations_delete_noref aw rws, by decide, by decide, by decide⟩

end

end TBA
